import Mathlib

/-!
Verification of the sampling module of `transformers-neuronx`
(`src/transformers_neuronx/sampling.py`).

The module implements autoregressive token generation: a validator for the
sampling hyperparameters, a combinable top-k / top-p (nucleus) filtering
engine, and several generation loops (`simple_sample` / `sample_loop`,
`sample_tokens`, `sample_greedy`, `sample_llama` / `sample_loop_llama`).

Modelling conventions:
* Python scalar arguments that may be `None`, an `int`, or a `float` are
  modelled by the inductive type `Py`; Python floats are modelled as exact
  rationals.
* Score tensors are modelled as lists of rows of real numbers; `-inf`
  produced by masking is modelled as `⊥ : WithBot ℝ`.
* `torch.multinomial(probs, 1)` is modelled by an oracle (`pick`) choosing a
  position, corrected to the first positive-probability position when the
  oracle's choice carries no probability mass — multinomial never returns a
  zero-probability category.
* The opaque model callable is a function argument; each generation loop
  additionally returns the trace of model invocations (tokens fed and cache
  ids) and a per-step log, so that statements about the interaction with the
  model can be made.
* `raise ValueError` is modelled as `Except.error`.
-/

namespace TNX

/-- A Python scalar argument: `None`, an `int`, or a `float`
(floats modelled as exact rationals). -/
inductive Py where
  | none : Py
  | int : ℤ → Py
  | float : ℚ → Py
deriving DecidableEq

/-- `isinstance(x, int)` for a `Py` value. -/
def Py.isInt : Py → Bool
  | .int _ => true
  | _ => false

/-- `isinstance(x, float)` for a `Py` value. -/
def Py.isFloat : Py → Bool
  | .float _ => true
  | _ => false

/-- The integer payload of a `Py` value (only consulted on `int` values,
mirroring Python's short-circuit evaluation). -/
def Py.intVal : Py → ℤ
  | .int n => n
  | _ => 0

/-- The float payload of a `Py` value (only consulted on `float` values). -/
def Py.floatVal : Py → ℚ
  | .float q => q
  | _ => 0

/-- Embedding of `validate_top_k_top_p_min_tokens_to_keep` (sampling.py,
lines 104-112): `top_k`, if provided, must be a strictly positive int;
`top_p`, if provided, must be a float in (0, 1]; `min_tokens_to_keep`, if
provided, must be a non-negative int. -/
def validate_top_k_top_p_min_tokens_to_keep (top_k top_p min_tokens_to_keep : Py) :
    Except String Unit :=
  if top_k ≠ Py.none ∧ (¬ top_k.isInt ∨ ¬ (0 < top_k.intVal)) then
    Except.error "top_k` has to be a strictly positive int."
  else if top_p ≠ Py.none ∧ (¬ top_p.isFloat ∨ ¬ (0 < top_p.floatVal ∧ top_p.floatVal ≤ 1)) then
    Except.error "top_p` has to be a strictly positive float that less than or equal to 1.0."
  else if min_tokens_to_keep ≠ Py.none ∧
      (¬ min_tokens_to_keep.isInt ∨ min_tokens_to_keep.intVal < 0) then
    Except.error "min_tokens_to_keep` has to be a non-negative int."
  else
    Except.ok ()

/-! ## Tensor primitives -/

/-- A 2-D tensor (batch of rows). -/
abbrev Mat (α : Type) := List (List α)

/-- Insert an (index, value) pair into a descending-sorted list of pairs,
placing it before the first pair whose value is not larger (so that a pair
coming earlier in the original row stays first among equal values, giving a
deterministic, stable sort). -/
def insertDesc {α : Type} [LinearOrder α] (x : ℕ × α) : List (ℕ × α) → List (ℕ × α)
  | [] => [x]
  | y :: l => if y.2 ≤ x.2 then x :: y :: l else y :: insertDesc x l

/-- Stable insertion sort of (index, value) pairs by descending value. -/
def sortDesc {α : Type} [LinearOrder α] : List (ℕ × α) → List (ℕ × α)
  | [] => []
  | x :: l => insertDesc x (sortDesc l)

/-- Embedding of `torch.sort(row, descending=True)` on one row: the values
sorted in descending order together with the positions they came from. -/
def torchSortRow {α : Type} [LinearOrder α] (row : List α) : List α × List ℕ :=
  let s := sortDesc row.enum
  (s.map Prod.snd, s.map Prod.fst)

/-- Embedding of `torch.topk(row, k)` on one row: the `k` largest values in
descending order together with their positions. -/
def torchTopkRow {α : Type} [LinearOrder α] (row : List α) (k : ℕ) : List α × List ℕ :=
  ((torchSortRow row).1.take k, (torchSortRow row).2.take k)

/-- Embedding of `torch.cumsum(row, dim=-1)`: inclusive running sums. -/
def cumsum : List ℝ → List ℝ
  | [] => []
  | x :: l => x :: (cumsum l).map (fun c => x + c)

/-- Embedding of `torch.nn.functional.softmax(row, dim=-1)` on one real row. -/
noncomputable def softmax (row : List ℝ) : List ℝ :=
  row.map (fun x => Real.exp x / (row.map Real.exp).sum)

/-- Embedding of `(row <= p).int().sum(dim=-1)`: how many entries of the row
are at most `p`. -/
noncomputable def countLe (row : List ℝ) (p : ℝ) : ℕ :=
  row.countP (fun c => decide (c ≤ p))

/-! ## The filtering engine

`top_k_top_p_filtering` (sampling.py, lines 115-168).  The nested Python
closures (`safe_size`, `input_value_and_indices`, `filter_by_top_k`,
`filter_by_top_p`) become top-level functions taking their captured
variables (`scores`, `top_p`, `min_tokens_to_keep`, `input_size`) as
parameters.  Scores are real rows; the returned score matrix uses
`⊥ : WithBot ℝ` for the `-inf` written by the top-p masking loop.  The
quirks of the source are kept: `torch.index_select(…, index=indices[0])`
and `indices_to_keep[0]` use row 0 of the respective matrix for every row
of the batch, and the dense width of the top-p result is `max(n_to_keep)`
over the batch (`List.foldl max 0`; Python's `max` is defined exactly on
the non-empty batches). -/

/-- `safe_size(size) = min(max(size, min_tokens_to_keep), input_size)`. -/
def safe_size (min_tokens_to_keep input_size size : ℕ) : ℕ :=
  min (max size min_tokens_to_keep) input_size

/-- `input_value_and_indices()`: all scores and the identity index map. -/
def input_value_and_indices (scores : Mat ℝ) : Mat (WithBot ℝ) × Mat ℕ :=
  (scores.map (fun row => row.map (fun x : ℝ => (x : WithBot ℝ))),
   scores.map (fun _ => List.range (scores.headD []).length))

/-- `filter_by_top_k()`: `torch.topk(scores, safe_size(top_k))` rowwise. -/
noncomputable def filter_by_top_k (scores : Mat ℝ) (top_k min_tokens_to_keep : ℕ) :
    Mat (WithBot ℝ) × Mat ℕ :=
  let input_size := (scores.headD []).length
  (scores.map (fun row : List ℝ =>
      ((torchTopkRow row (safe_size min_tokens_to_keep input_size top_k)).1.map
        (fun x : ℝ => (x : WithBot ℝ)))),
   scores.map (fun row : List ℝ =>
      (torchTopkRow row (safe_size min_tokens_to_keep input_size top_k)).2))

/-- The cumulative softmax probabilities of a row after descending sort:
`torch.cumsum(softmax(sorted_scores), dim=-1)` for one row. -/
noncomputable def cumProbs (row : List ℝ) : List ℝ :=
  cumsum (softmax (torchSortRow row).1)

/-- One entry of `n_to_keep`: `safe_size((cumulative_probs <= top_p).int().sum())`. -/
noncomputable def nKeep (p : ℝ) (min_tokens_to_keep input_size : ℕ) (row : List ℝ) : ℕ :=
  safe_size min_tokens_to_keep input_size (countLe (cumProbs row) p)

/-- `filter_by_top_p(indices)`: nucleus filtering over the whole scores
(`indices = none`) or over the pool selected by top-k filtering
(`indices = some idx`, where `torch.index_select` uses `idx[0]`, row 0 of
the index matrix, for every batch row, as in the source). -/
noncomputable def filter_by_top_p (scores : Mat ℝ) (p : ℝ) (min_tokens_to_keep : ℕ)
    (indices : Option (Mat ℕ)) : Mat (WithBot ℝ) × Mat ℕ :=
  let input_size := (scores.headD []).length
  let scores_to_filter : Mat ℝ :=
    match indices with
    | Option.none => scores
    | Option.some idx => scores.map (fun row => (idx.headD []).map (fun j => row.getD j 0))
  let n_to_keep : List ℕ := scores_to_filter.map (nKeep p min_tokens_to_keep input_size)
  let maxN : ℕ := n_to_keep.foldl max 0
  let masked : Mat (WithBot ℝ) :=
    (scores_to_filter.zip n_to_keep).map (fun rn =>
      ((torchSortRow rn.1).1.take maxN).enum.map
        (fun jc => if rn.2 ≤ jc.1 then (⊥ : WithBot ℝ) else (jc.2 : WithBot ℝ)))
  let indices_to_keep : Mat ℕ := scores_to_filter.map (fun row => (torchSortRow row).2.take maxN)
  let indices_final : Mat ℕ :=
    match indices with
    | Option.none => indices_to_keep
    | Option.some idx =>
      idx.map (fun row => (indices_to_keep.headD []).map (fun j => row.getD j 0))
  (masked, indices_final)

/-- Embedding of `top_k_top_p_filtering`: validation, then dispatch on which
of `top_k` / `top_p` are provided. -/
noncomputable def top_k_top_p_filtering (scores : Mat ℝ)
    (top_k top_p : Py) (min_tokens_to_keep : Py := Py.int 1) :
    Except String (Mat (WithBot ℝ) × Mat ℕ) :=
  match validate_top_k_top_p_min_tokens_to_keep top_k top_p min_tokens_to_keep with
  | Except.error e => Except.error e
  | Except.ok _ =>
    let input_size := (scores.headD []).length
    let mtk := min_tokens_to_keep.intVal.toNat
    if (top_k = Py.none ∧ top_p = Py.none) ∨ input_size < mtk then
      Except.ok (input_value_and_indices scores)
    else if top_k ≠ Py.none ∧ top_p = Py.none then
      Except.ok (filter_by_top_k scores top_k.intVal.toNat mtk)
    else if top_k = Py.none ∧ top_p ≠ Py.none then
      Except.ok (filter_by_top_p scores ((top_p.floatVal : ℚ) : ℝ) mtk Option.none)
    else
      Except.ok (filter_by_top_p scores ((top_p.floatVal : ℚ) : ℝ) mtk
        (Option.some (filter_by_top_k scores top_k.intVal.toNat mtk).2))

/-! ## Properties of the sorting primitive -/

theorem insertDesc_perm {α : Type} [LinearOrder α] (x : ℕ × α) (l : List (ℕ × α)) :
    List.Perm (insertDesc x l) (x :: l) := by
  induction l with
  | nil => simp [insertDesc]
  | cons y l ih =>
    by_cases h : y.2 ≤ x.2
    · simp [insertDesc, h]
    · simpa [insertDesc, h] using ((ih.cons y).trans (List.Perm.swap x y l))

theorem sortDesc_perm {α : Type} [LinearOrder α] (l : List (ℕ × α)) :
    List.Perm (sortDesc l) l := by
  induction l with
  | nil => simp [sortDesc]
  | cons x l ih => exact (insertDesc_perm x (sortDesc l)).trans (ih.cons x)

theorem sortDesc_length {α : Type} [LinearOrder α] (l : List (ℕ × α)) :
    (sortDesc l).length = l.length :=
  (sortDesc_perm l).length_eq

theorem insertDesc_pairwise {α : Type} [LinearOrder α] (x : ℕ × α) {l : List (ℕ × α)}
    (hl : l.Pairwise (fun a b => b.2 ≤ a.2)) :
    (insertDesc x l).Pairwise (fun a b => b.2 ≤ a.2) := by
  induction l with
  | nil => simp [insertDesc]
  | cons y l ih =>
    rcases List.pairwise_cons.mp hl with ⟨hy, hl'⟩
    by_cases h : y.2 ≤ x.2
    · rw [insertDesc, if_pos h]
      refine List.pairwise_cons.mpr ⟨?_, hl⟩
      intro z hz
      rcases List.mem_cons.mp hz with rfl | hz
      · exact h
      · exact le_trans (hy z hz) h
    · rw [insertDesc, if_neg h]
      refine List.pairwise_cons.mpr ⟨?_, ih hl'⟩
      intro z hz
      have hz' := (insertDesc_perm x l).mem_iff.mp hz
      rcases List.mem_cons.mp hz' with rfl | hz'
      · exact le_of_lt (lt_of_not_le h)
      · exact hy z hz'

theorem sortDesc_pairwise {α : Type} [LinearOrder α] (l : List (ℕ × α)) :
    (sortDesc l).Pairwise (fun a b => b.2 ≤ a.2) := by
  induction l with
  | nil => simp [sortDesc]
  | cons x l ih => exact insertDesc_pairwise x ih

theorem torchSortRow_length_fst {α : Type} [LinearOrder α] (row : List α) :
    (torchSortRow row).1.length = row.length := by
  simp [torchSortRow, sortDesc_length]

theorem torchSortRow_length_snd {α : Type} [LinearOrder α] (row : List α) :
    (torchSortRow row).2.length = row.length := by
  simp [torchSortRow, sortDesc_length]

theorem torchSortRow_fst_perm {α : Type} [LinearOrder α] (row : List α) :
    List.Perm (torchSortRow row).1 row := by
  have h := (sortDesc_perm row.enum).map Prod.snd
  simpa [torchSortRow, List.enum_map_snd] using h

theorem torchSortRow_snd_lt {α : Type} [LinearOrder α] (row : List α) :
    ∀ i ∈ (torchSortRow row).2, i < row.length := by
  intro i hi
  have h : i ∈ row.enum.map Prod.fst :=
    ((sortDesc_perm row.enum).map Prod.fst).mem_iff.mp hi
  rcases List.mem_map.mp h with ⟨x, hx, rfl⟩
  have := List.mem_enum_iff_getElem?.mp hx
  exact (List.getElem?_eq_some.mp this).1

/-- The values and positions returned by `torchSortRow` are aligned: the
`j`-th sorted value is the row entry at the `j`-th returned position. -/
theorem torchSortRow_pairing {α : Type} [LinearOrder α] (row : List α) (d : α)
    (j : ℕ) (hj : j < row.length) :
    (torchSortRow row).1.getD j d = row.getD ((torchSortRow row).2.getD j 0) d := by
  have hjs : j < (sortDesc row.enum).length := by
    rw [sortDesc_length, List.enum_length]; exact hj
  have hmem : (sortDesc row.enum).get ⟨j, hjs⟩ ∈ row.enum :=
    (sortDesc_perm row.enum).subset (List.get_mem _ _ _)
  have hpair := List.mem_enum_iff_getElem?.mp hmem
  have hlt : ((sortDesc row.enum).get ⟨j, hjs⟩).1 < row.length :=
    (List.getElem?_eq_some.mp hpair).1
  have hval : row.getD ((sortDesc row.enum).get ⟨j, hjs⟩).1 d
      = ((sortDesc row.enum).get ⟨j, hjs⟩).2 := by
    rw [List.getD_eq_getElem row d hlt]
    exact Option.some_injective _ ((List.getElem?_eq_getElem hlt).symm.trans hpair)
  have h1 : (torchSortRow row).1.getD j d = ((sortDesc row.enum).get ⟨j, hjs⟩).2 := by
    simp only [torchSortRow]
    rw [List.getD_eq_getElem _ d (by simpa [sortDesc_length] using hjs)]
    simp [List.getElem_map]
  have h2 : (torchSortRow row).2.getD j 0 = ((sortDesc row.enum).get ⟨j, hjs⟩).1 := by
    simp only [torchSortRow]
    rw [List.getD_eq_getElem _ 0 (by simpa [sortDesc_length] using hjs)]
    simp [List.getElem_map]
  rw [h1, h2, hval]

/-- The sorted values are descending. -/
theorem torchSortRow_sorted {α : Type} [LinearOrder α] (row : List α) :
    (torchSortRow row).1.Pairwise (fun a b => b ≤ a) := by
  have h := sortDesc_pairwise row.enum
  exact (List.pairwise_map.mpr (h.imp (fun hab => hab)))

/-! ## Properties of softmax, cumsum and the prefix count -/

theorem softmax_length (row : List ℝ) : (softmax row).length = row.length := by
  simp [softmax]

theorem softmax_nonneg (row : List ℝ) : ∀ x ∈ softmax row, 0 ≤ x := by
  intro x hx
  rcases List.mem_map.mp hx with ⟨a, _, rfl⟩
  have hs : 0 ≤ (row.map Real.exp).sum :=
    List.sum_nonneg (by
      intro y hy
      rcases List.mem_map.mp hy with ⟨b, _, rfl⟩
      exact le_of_lt (Real.exp_pos b))
  exact div_nonneg (le_of_lt (Real.exp_pos a)) hs

theorem sum_map_exp_pos (row : List ℝ) (h : row ≠ []) : 0 < (row.map Real.exp).sum := by
  refine List.sum_pos _ ?_ (by simpa using h)
  intro x hx
  rcases List.mem_map.mp hx with ⟨a, _, rfl⟩
  exact Real.exp_pos a

theorem softmax_pos (row : List ℝ) (h : row ≠ []) : ∀ x ∈ softmax row, 0 < x := by
  intro x hx
  rcases List.mem_map.mp hx with ⟨a, _, rfl⟩
  exact div_pos (Real.exp_pos a) (sum_map_exp_pos row h)

theorem cumsum_length (l : List ℝ) : (cumsum l).length = l.length := by
  induction l with
  | nil => simp [cumsum]
  | cons x l ih => simp [cumsum, ih]

theorem cumsum_nonneg {l : List ℝ} (hl : ∀ x ∈ l, 0 ≤ x) : ∀ c ∈ cumsum l, 0 ≤ c := by
  induction l with
  | nil => simp [cumsum]
  | cons x l ih =>
    intro c hc
    have hx : 0 ≤ x := hl x (by simp)
    rw [cumsum] at hc
    rcases List.mem_cons.mp hc with rfl | hc
    · exact hx
    · rcases List.mem_map.mp hc with ⟨c', hc', rfl⟩
      exact add_nonneg hx (ih (fun y hy => hl y (by simp [hy])) c' hc')

theorem cumsum_sorted {l : List ℝ} (hl : ∀ x ∈ l, 0 ≤ x) :
    (cumsum l).Pairwise (fun a b => a ≤ b) := by
  induction l with
  | nil => simp [cumsum]
  | cons x l ih =>
    have hx : 0 ≤ x := hl x (by simp)
    have htail : ∀ y ∈ l, (0:ℝ) ≤ y := fun y hy => hl y (by simp [hy])
    rw [cumsum]
    refine List.pairwise_cons.mpr ⟨?_, ?_⟩
    · intro c hc
      rcases List.mem_map.mp hc with ⟨c', hc', rfl⟩
      have := cumsum_nonneg htail c' hc'
      linarith
    · exact List.pairwise_map.mpr ((ih htail).imp (by intro a b hab; linarith))

theorem countLe_le_length (l : List ℝ) (p : ℝ) : countLe l p ≤ l.length :=
  List.countP_le_length _

/-- For a list sorted in ascending order, `countLe` counts the longest
initial segment of entries `≤ p`: every position below the count is `≤ p`,
and the entry at the count (when it exists) is `> p`. -/
theorem countLe_prefix {l : List ℝ} {p : ℝ} (hl : l.Pairwise (fun a b => a ≤ b)) :
    (∀ k, k < countLe l p → l.getD k 0 ≤ p) ∧
    (countLe l p < l.length → p < l.getD (countLe l p) 0) := by
  induction l with
  | nil => simp [countLe]
  | cons x l ih =>
    rcases List.pairwise_cons.mp hl with ⟨hx, hl'⟩
    by_cases hxp : x ≤ p
    · have hcount : countLe (x :: l) p = countLe l p + 1 := by
        simp [countLe, List.countP_cons, hxp]
      constructor
      · intro k hk
        rw [hcount] at hk
        cases k with
        | zero => simpa using hxp
        | succ k' => exact (ih hl').1 k' (by omega)
      · intro hlen
        rw [hcount] at hlen ⊢
        simpa using (ih hl').2 (by simpa using hlen)
    · have hall : ∀ y ∈ l, ¬ (y ≤ p) := by
        intro y hy hyp
        exact hxp (le_trans (hx y hy) hyp)
      have hcount : countLe (x :: l) p = 0 := by
        simp only [countLe, List.countP_eq_zero]
        intro a ha
        rcases List.mem_cons.mp ha with rfl | ha
        · simpa using hxp
        · simpa using hall a ha
      rw [hcount]
      exact ⟨by omega, fun _ => by simpa using lt_of_not_le hxp⟩

/-! ## fold-max utilities (Python's `max` over a batch) -/

theorem le_foldl_max_init (l : List ℕ) (a : ℕ) : a ≤ l.foldl max a := by
  induction l generalizing a with
  | nil => simp
  | cons x l ih => exact le_trans (Nat.le_max_left a x) (ih (max a x))

theorem le_foldl_max (l : List ℕ) (a : ℕ) : ∀ x ∈ l, x ≤ l.foldl max a := by
  induction l generalizing a with
  | nil => simp
  | cons y l ih =>
    intro x hx
    rcases List.mem_cons.mp hx with rfl | hx
    · exact le_trans (Nat.le_max_right a x) (le_foldl_max_init l (max a x))
    · exact ih (max a y) x hx

theorem foldl_max_le {l : List ℕ} {a c : ℕ} (ha : a ≤ c) (h : ∀ x ∈ l, x ≤ c) :
    l.foldl max a ≤ c := by
  induction l generalizing a with
  | nil => simpa
  | cons x l ih =>
    exact ih (max_le ha (h x (by simp))) (fun y hy => h y (by simp [hy]))

/-- The validator accepts legal parameter combinations: `top_k` absent or a
positive int, `top_p` absent or a float in (0, 1], `min_tokens_to_keep`
absent or a non-negative int. -/
theorem validate_accepts (k p m : Py)
    (hk : k = Py.none ∨ ∃ n : ℤ, k = Py.int n ∧ 0 < n)
    (hp : p = Py.none ∨ ∃ q : ℚ, p = Py.float q ∧ 0 < q ∧ q ≤ 1)
    (hm : m = Py.none ∨ ∃ n : ℤ, m = Py.int n ∧ 0 ≤ n) :
    validate_top_k_top_p_min_tokens_to_keep k p m = Except.ok () := by
  have h1 : ¬(k ≠ Py.none ∧ (¬ k.isInt ∨ ¬ (0 < k.intVal))) := by
    rcases hk with rfl | ⟨n, rfl, hn⟩
    · simp
    · simp [Py.isInt, Py.intVal, hn]
  have h2 : ¬(p ≠ Py.none ∧ (¬ p.isFloat ∨ ¬ (0 < p.floatVal ∧ p.floatVal ≤ 1))) := by
    rcases hp with rfl | ⟨q, rfl, hq0, hq1⟩
    · simp
    · simp [Py.isFloat, Py.floatVal, hq0, hq1]
  have h3 : ¬(m ≠ Py.none ∧ (¬ m.isInt ∨ m.intVal < 0)) := by
    rcases hm with rfl | ⟨n, rfl, hn⟩
    · simp
    · simp [Py.isInt, Py.intVal]
      omega
  unfold validate_top_k_top_p_min_tokens_to_keep
  rw [if_neg h1, if_neg h2, if_neg h3]

/-! ## Dispatch lemmas for the filtering engine -/

theorem filtering_eq_top_p (scores : Mat ℝ) (p : ℚ) (mtk : ℕ)
    (hp0 : 0 < p) (hp1 : p ≤ 1) (hmtk : mtk ≤ (scores.headD []).length) :
    top_k_top_p_filtering scores Py.none (Py.float p) (Py.int mtk) =
      Except.ok (filter_by_top_p scores (p : ℝ) mtk Option.none) := by
  unfold top_k_top_p_filtering
  rw [validate_accepts _ _ _ (Or.inl rfl) (Or.inr ⟨p, rfl, hp0, hp1⟩)
    (Or.inr ⟨(mtk : ℤ), rfl, by exact_mod_cast Nat.zero_le mtk⟩)]
  simp only [Py.intVal, Py.floatVal, Int.toNat_ofNat]
  rw [if_neg (by rw [List.headD_eq_head?_getD] at hmtk; simp; omega)]
  simp

theorem filtering_eq_both (scores : Mat ℝ) (k : ℕ) (p : ℚ) (mtk : ℕ)
    (hk : 0 < k) (hp0 : 0 < p) (hp1 : p ≤ 1) (hmtk : mtk ≤ (scores.headD []).length) :
    top_k_top_p_filtering scores (Py.int k) (Py.float p) (Py.int mtk) =
      Except.ok (filter_by_top_p scores (p : ℝ) mtk
        (Option.some (filter_by_top_k scores k mtk).2)) := by
  unfold top_k_top_p_filtering
  rw [validate_accepts _ _ _ (Or.inr ⟨(k : ℤ), rfl, by exact_mod_cast hk⟩)
    (Or.inr ⟨p, rfl, hp0, hp1⟩)
    (Or.inr ⟨(mtk : ℤ), rfl, by exact_mod_cast Nat.zero_le mtk⟩)]
  simp only [Py.intVal, Py.floatVal, Int.toNat_ofNat]
  rw [if_neg (by rw [List.headD_eq_head?_getD] at hmtk; simp; omega)]
  simp

theorem filtering_eq_top_k (scores : Mat ℝ) (k : ℕ) (mtk : ℕ)
    (hk : 0 < k) (hmtk : mtk ≤ (scores.headD []).length) :
    top_k_top_p_filtering scores (Py.int k) Py.none (Py.int mtk) =
      Except.ok (filter_by_top_k scores k mtk) := by
  unfold top_k_top_p_filtering
  rw [validate_accepts _ _ _ (Or.inr ⟨(k : ℤ), rfl, by exact_mod_cast hk⟩) (Or.inl rfl)
    (Or.inr ⟨(mtk : ℤ), rfl, by exact_mod_cast Nat.zero_le mtk⟩)]
  simp only [Py.intVal, Int.toNat_ofNat]
  rw [if_neg (by rw [List.headD_eq_head?_getD] at hmtk; simp; omega)]
  simp

/-! ## getD utilities -/

theorem getD_map_of_lt {α β : Type} (f : α → β) (l : List α) (i : ℕ) (hi : i < l.length)
    (d : α) (d' : β) : (l.map f).getD i d' = f (l.getD i d) := by
  rw [List.getD_eq_getElem _ d' (by simpa using hi), List.getD_eq_getElem _ d hi,
    List.getElem_map]

theorem getD_zip_of_lt {α β : Type} (l : List α) (l' : List β) (i : ℕ)
    (h : i < l.length) (h' : i < l'.length) (d : α) (d' : β) :
    (l.zip l').getD i (d, d') = (l.getD i d, l'.getD i d') := by
  have hz : i < (l.zip l').length := by rw [List.length_zip]; omega
  rw [List.getD_eq_getElem _ _ hz, List.getD_eq_getElem _ d h, List.getD_eq_getElem _ d' h',
    List.getElem_zip]

theorem getD_take_of_lt {α : Type} (l : List α) (n i : ℕ) (hi : i < n) (hl : i < l.length)
    (d : α) : (l.take n).getD i d = l.getD i d := by
  have ht : i < (l.take n).length := by rw [List.length_take]; omega
  rw [List.getD_eq_getElem _ d ht, List.getD_eq_getElem _ d hl, List.getElem_take]

theorem getD_enum_of_lt {α : Type} (l : List α) (i : ℕ) (hi : i < l.length) (d : α) :
    l.enum.getD i (0, d) = (i, l.getD i d) := by
  have he : i < l.enum.length := by rw [List.enum_length]; exact hi
  rw [List.getD_eq_getElem _ _ he, List.getD_eq_getElem _ d hi, List.getElem_enum]

/-! ## Row-level characterisation of top-p filtering (no preceding top-k) -/

/-- What one batch row of `filter_by_top_p scores p mtk none` looks like:
the index row is the `maxN`-truncated descending sort index row, and the
value row is the `maxN`-truncated sorted score row with entries from
position `n_to_keep[i]` on replaced by `-inf`. -/
theorem filter_by_top_p_none_row (scores : Mat ℝ) (p : ℝ) (mtk : ℕ)
    (i : ℕ) (hi : i < scores.length) :
    ((filter_by_top_p scores p mtk Option.none).2.getD i []
        = (torchSortRow (scores.getD i [])).2.take
            ((scores.map (nKeep p mtk (scores.headD []).length)).foldl max 0)) ∧
    ((filter_by_top_p scores p mtk Option.none).1.getD i []
        = ((torchSortRow (scores.getD i [])).1.take
              ((scores.map (nKeep p mtk (scores.headD []).length)).foldl max 0)).enum.map
            (fun jc => if nKeep p mtk (scores.headD []).length (scores.getD i []) ≤ jc.1
              then (⊥ : WithBot ℝ) else (jc.2 : WithBot ℝ))) := by
  constructor
  · show ((scores.map (fun row => (torchSortRow row).2.take _)).getD i []) = _
    rw [getD_map_of_lt _ scores i hi []]
  · show (((scores.zip (scores.map (nKeep p mtk (scores.headD []).length))).map _).getD i [])
        = _
    have hz : i < (scores.zip (scores.map (nKeep p mtk (scores.headD []).length))).length := by
      rw [List.length_zip, List.length_map]; omega
    rw [getD_map_of_lt _ _ i hz ([], 0)]
    rw [getD_zip_of_lt _ _ i hi (by rw [List.length_map]; omega) [] 0]
    rw [getD_map_of_lt _ scores i hi []]

theorem getD_mem_of_lt {α : Type} (l : List α) (i : ℕ) (hi : i < l.length) (d : α) :
    l.getD i d ∈ l := by
  rw [List.getD_eq_getElem _ d hi]
  exact List.getElem_mem hi

theorem cumProbs_length (row : List ℝ) : (cumProbs row).length = row.length := by
  rw [cumProbs, cumsum_length, softmax_length, torchSortRow_length_fst]

theorem cumProbs_sorted (row : List ℝ) : (cumProbs row).Pairwise (fun a b => a ≤ b) :=
  cumsum_sorted (softmax_nonneg _)

/-- Claim C1 (amended): in `top_k_top_p_filtering` with `top_p` set and
`top_k` absent, for every score row the kept entries are the
descending-sorted prefix counting the entries whose cumulative softmax
probability is `≤ top_p` — the first entry whose cumulative probability
exceeds `top_p` is `> top_p` and is NOT part of that count — with the kept
count clamped between `min_tokens_to_keep` and the vocabulary size `V`;
entries of the returned dense matrix (width `W = max(n_to_keep)` over the
batch) beyond a row's kept count are set to `-inf`. -/
theorem top_p_keeps_le_prefix (scores : Mat ℝ) (V mtk : ℕ) (p : ℚ)
    (hB : scores ≠ []) (hV : ∀ row ∈ scores, row.length = V)
    (hmtk : mtk ≤ V) (hp0 : 0 < p) (hp1 : p ≤ 1) :
    ∃ W vals idxs,
      top_k_top_p_filtering scores Py.none (Py.float p) (Py.int mtk)
          = Except.ok (vals, idxs) ∧
      W = (scores.map (nKeep (p : ℝ) mtk V)).foldl max 0 ∧ W ≤ V ∧
      ∀ i, i < scores.length →
        nKeep (p : ℝ) mtk V (scores.getD i [])
            = min (max (countLe (cumProbs (scores.getD i [])) (p : ℝ)) mtk) V ∧
        mtk ≤ nKeep (p : ℝ) mtk V (scores.getD i []) ∧
        nKeep (p : ℝ) mtk V (scores.getD i []) ≤ W ∧
        (∀ k, k < countLe (cumProbs (scores.getD i [])) (p : ℝ) →
          (cumProbs (scores.getD i [])).getD k 0 ≤ (p : ℝ)) ∧
        (countLe (cumProbs (scores.getD i [])) (p : ℝ) < V →
          (p : ℝ) < (cumProbs (scores.getD i [])).getD
            (countLe (cumProbs (scores.getD i [])) (p : ℝ)) 0) ∧
        List.Perm (torchSortRow (scores.getD i [])).1 (scores.getD i []) ∧
        (torchSortRow (scores.getD i [])).1.Pairwise (fun a b => b ≤ a) ∧
        idxs.getD i [] = (torchSortRow (scores.getD i [])).2.take W ∧
        (vals.getD i []).length = W ∧
        (∀ j, j < nKeep (p : ℝ) mtk V (scores.getD i []) →
          (vals.getD i []).getD j ⊥
            = ((torchSortRow (scores.getD i [])).1.getD j 0 : ℝ)) ∧
        (∀ j, nKeep (p : ℝ) mtk V (scores.getD i []) ≤ j → j < W →
          (vals.getD i []).getD j ⊥ = ⊥) := by
  have hw : (scores.headD []).length = V := by
    cases scores with
    | nil => exact absurd rfl hB
    | cons r t => exact hV r (by simp)
  have hWdef : (scores.map (nKeep (p : ℝ) mtk (scores.headD []).length)).foldl max 0
      = (scores.map (nKeep (p : ℝ) mtk V)).foldl max 0 := by rw [hw]
  refine ⟨(scores.map (nKeep (p : ℝ) mtk V)).foldl max 0,
    (filter_by_top_p scores (p : ℝ) mtk Option.none).1,
    (filter_by_top_p scores (p : ℝ) mtk Option.none).2,
    by rw [filtering_eq_top_p scores p mtk hp0 hp1 (hw ▸ hmtk)], rfl, ?_, ?_⟩
  · refine foldl_max_le (Nat.zero_le V) ?_
    intro x hx
    rcases List.mem_map.mp hx with ⟨row, _, rfl⟩
    exact min_le_right _ _
  intro i hi
  have hrow : scores.getD i [] ∈ scores := getD_mem_of_lt scores i hi []
  have hrowlen : (scores.getD i []).length = V := hV _ hrow
  have hsortlen : (torchSortRow (scores.getD i [])).1.length = V := by
    rw [torchSortRow_length_fst, hrowlen]
  have hcplen : (cumProbs (scores.getD i [])).length = V := by
    rw [cumProbs_length, hrowlen]
  have hchar := countLe_prefix (p := (p : ℝ)) (cumProbs_sorted (scores.getD i []))
  have hrowspec := filter_by_top_p_none_row scores (p : ℝ) mtk i hi
  have hnW : nKeep (p : ℝ) mtk V (scores.getD i [])
      ≤ (scores.map (nKeep (p : ℝ) mtk V)).foldl max 0 :=
    le_foldl_max _ 0 _ (List.mem_map.mpr ⟨scores.getD i [], hrow, rfl⟩)
  have hWV : (scores.map (nKeep (p : ℝ) mtk V)).foldl max 0 ≤ V := by
    refine foldl_max_le (Nat.zero_le V) ?_
    intro x hx
    rcases List.mem_map.mp hx with ⟨row, _, rfl⟩
    exact min_le_right _ _
  have hnV : nKeep (p : ℝ) mtk V (scores.getD i []) ≤ V := min_le_right _ _
  have hvals : (filter_by_top_p scores (p : ℝ) mtk Option.none).1.getD i []
      = ((torchSortRow (scores.getD i [])).1.take
            ((scores.map (nKeep (p : ℝ) mtk V)).foldl max 0)).enum.map
          (fun jc => if nKeep (p : ℝ) mtk V (scores.getD i []) ≤ jc.1
            then (⊥ : WithBot ℝ) else (jc.2 : WithBot ℝ)) := by
    rw [hrowspec.2, hw]
  have htakelen : ((torchSortRow (scores.getD i [])).1.take
      ((scores.map (nKeep (p : ℝ) mtk V)).foldl max 0)).length
      = (scores.map (nKeep (p : ℝ) mtk V)).foldl max 0 := by
    rw [List.length_take, hsortlen]
    omega
  refine ⟨by rw [nKeep, safe_size], by simp [nKeep, safe_size]; omega, hnW,
    hchar.1, ?_, torchSortRow_fst_perm _, torchSortRow_sorted _, ?_, ?_, ?_, ?_⟩
  · intro hc
    exact hchar.2 (by omega)
  · rw [hrowspec.1, hw]
  · rw [hvals, List.length_map, List.enum_length, htakelen]
  · intro j hj
    have hjW : j < (scores.map (nKeep (p : ℝ) mtk V)).foldl max 0 := by omega
    have hjtake : j < ((torchSortRow (scores.getD i [])).1.take
        ((scores.map (nKeep (p : ℝ) mtk V)).foldl max 0)).length := by omega
    rw [hvals, getD_map_of_lt _ _ j (by rwa [List.enum_length]) (0, 0) ⊥,
      getD_enum_of_lt _ j hjtake 0]
    have : ¬ (nKeep (p : ℝ) mtk V (scores.getD i []) ≤ j) := by omega
    rw [if_neg this, getD_take_of_lt _ _ j hjW (by omega) 0]
  · intro j hj hjW
    have hjtake : j < ((torchSortRow (scores.getD i [])).1.take
        ((scores.map (nKeep (p : ℝ) mtk V)).foldl max 0)).length := by omega
    rw [hvals, getD_map_of_lt _ _ j (by rwa [List.enum_length]) (0, 0) ⊥,
      getD_enum_of_lt _ j hjtake 0]
    rw [if_pos hj]

/-- Witness for the amended claim C1: the theorem applied to the concrete
batch `[[0, 0]]` with `V = 2`, `top_p = 1/2`, `min_tokens_to_keep = 1`. -/
theorem top_p_keeps_le_prefix_witness :
    ∃ W vals idxs,
      top_k_top_p_filtering [[(0:ℝ), 0]] Py.none (Py.float (1/2)) (Py.int 1)
          = Except.ok (vals, idxs) ∧
      W = ([[(0:ℝ), 0]].map (nKeep ((1/2 : ℚ) : ℝ) 1 2)).foldl max 0 ∧ W ≤ 2 ∧
      ∀ i, i < [[(0:ℝ), 0]].length →
        nKeep ((1/2 : ℚ) : ℝ) 1 2 ([[(0:ℝ), 0]].getD i [])
            = min (max (countLe (cumProbs ([[(0:ℝ), 0]].getD i [])) ((1/2 : ℚ) : ℝ)) 1) 2 ∧
        1 ≤ nKeep ((1/2 : ℚ) : ℝ) 1 2 ([[(0:ℝ), 0]].getD i []) ∧
        nKeep ((1/2 : ℚ) : ℝ) 1 2 ([[(0:ℝ), 0]].getD i []) ≤ W ∧
        (∀ k, k < countLe (cumProbs ([[(0:ℝ), 0]].getD i [])) ((1/2 : ℚ) : ℝ) →
          (cumProbs ([[(0:ℝ), 0]].getD i [])).getD k 0 ≤ ((1/2 : ℚ) : ℝ)) ∧
        (countLe (cumProbs ([[(0:ℝ), 0]].getD i [])) ((1/2 : ℚ) : ℝ) < 2 →
          ((1/2 : ℚ) : ℝ) < (cumProbs ([[(0:ℝ), 0]].getD i [])).getD
            (countLe (cumProbs ([[(0:ℝ), 0]].getD i [])) ((1/2 : ℚ) : ℝ)) 0) ∧
        List.Perm (torchSortRow ([[(0:ℝ), 0]].getD i [])).1 ([[(0:ℝ), 0]].getD i []) ∧
        (torchSortRow ([[(0:ℝ), 0]].getD i [])).1.Pairwise (fun a b => b ≤ a) ∧
        idxs.getD i [] = (torchSortRow ([[(0:ℝ), 0]].getD i [])).2.take W ∧
        (vals.getD i []).length = W ∧
        (∀ j, j < nKeep ((1/2 : ℚ) : ℝ) 1 2 ([[(0:ℝ), 0]].getD i []) →
          (vals.getD i []).getD j ⊥
            = ((torchSortRow ([[(0:ℝ), 0]].getD i [])).1.getD j 0 : ℝ)) ∧
        (∀ j, nKeep ((1/2 : ℚ) : ℝ) 1 2 ([[(0:ℝ), 0]].getD i []) ≤ j → j < W →
          (vals.getD i []).getD j ⊥ = ⊥) :=
  top_p_keeps_le_prefix [[(0:ℝ), 0]] 2 1 (1/2) (by simp)
    (by intro row hr; rw [List.mem_singleton] at hr; rw [hr]; rfl)
    (by norm_num) (by norm_num) (by norm_num)

/-- The per-row kept count asserted by claim C1, following the spec's words:
the prefix of entries with cumulative softmax probability `≤ top_p` extended
by one more entry (so that the first entry whose cumulative probability
exceeds `top_p` is always covered), clamped between `min_tokens_to_keep`
and the vocabulary size. -/
noncomputable def claimedKeepCount (p : ℝ) (min_tokens_to_keep input_size : ℕ)
    (row : List ℝ) : ℕ :=
  min (max (countLe (cumProbs row) p + 1) min_tokens_to_keep) input_size

/-- Counterexample to claim C1 as stated: for the row `[0, 0]` with
`top_p = 1/2` and `min_tokens_to_keep = 1`, the cumulative softmax
probabilities are `[1/2, 1]`, so the claimed kept count (smallest prefix
with cumulative probability `≤ top_p` extended by one more entry, i.e.
covering the first entry exceeding `top_p`) is `2`, but the code keeps only
`1` entry: the returned dense matrix is `[[0]]` (width 1, no second entry at
all), so the first entry whose cumulative probability exceeds `top_p` is
not kept. -/
theorem top_p_claim_counterexample :
    claimedKeepCount ((1/2 : ℚ) : ℝ) 1 2 [(0:ℝ), 0] = 2 ∧
    top_k_top_p_filtering [[(0:ℝ), 0]] Py.none (Py.float (1/2)) (Py.int 1)
      = Except.ok ([[((0:ℝ) : WithBot ℝ)]], [[0]]) := by
  have hsort : torchSortRow [(0:ℝ), 0] = ([0, 0], [0, 1]) := by
    norm_num [torchSortRow, sortDesc, insertDesc, List.enum, List.enumFrom]
  have hsoftmax : softmax [(0:ℝ), 0] = [1/2, 1/2] := by
    norm_num [softmax, Real.exp_zero]
  have hcum : cumsum [(1:ℝ)/2, 1/2] = [(1:ℝ)/2, 1] := by
    norm_num [cumsum]
  have hcount : countLe [(1:ℝ)/2, 1] ((1:ℝ)/2) = 1 := by
    norm_num [countLe, List.countP_cons, List.countP_nil]
  have hcp : cumProbs [(0:ℝ), 0] = [(1:ℝ)/2, 1] := by
    rw [cumProbs, hsort]
    show cumsum (softmax [(0:ℝ), 0]) = _
    rw [hsoftmax, hcum]
  have hn : nKeep ((1:ℝ)/2) 1 2 [(0:ℝ), 0] = 1 := by
    rw [nKeep, hcp, hcount, safe_size]
    omega
  have hcast : ((1/2 : ℚ) : ℝ) = (1:ℝ)/2 := by norm_num
  constructor
  · rw [hcast, claimedKeepCount, hcp, hcount]
    omega
  · refine Eq.trans
      (filtering_eq_top_p [[(0:ℝ), 0]] (1/2) 1 (by norm_num) (by norm_num) (by norm_num)) ?_
    rw [hcast]
    have hfilter : filter_by_top_p [[(0:ℝ), 0]] ((1:ℝ)/2) 1 Option.none
        = ([[((0:ℝ) : WithBot ℝ)]], [[0]]) := by
      simp only [filter_by_top_p]
      norm_num [hn, hsort, List.enum, List.enumFrom]
    rw [hfilter]

theorem headD_eq_getD_zero {α : Type} (l : List α) (d : α) : l.headD d = l.getD 0 d := by
  cases l <;> rfl

theorem torchTopkRow_snd_length {α : Type} [LinearOrder α] (row : List α) (k : ℕ) :
    (torchTopkRow row k).2.length = min k row.length := by
  rw [torchTopkRow, List.length_take, torchSortRow_length_snd]

theorem torchTopkRow_snd_lt {α : Type} [LinearOrder α] (row : List α) (k : ℕ) :
    ∀ i ∈ (torchTopkRow row k).2, i < row.length := by
  intro i hi
  exact torchSortRow_snd_lt row i (List.take_subset _ _ hi)

/-- Every index in a row of the final index matrix of top-k-then-top-p
filtering is drawn (by the final `torch.index_select` through positions
computed from row 0) from that row of the incoming top-k index matrix. -/
theorem filter_by_top_p_some_mem (scores : Mat ℝ) (p : ℝ) (mtk : ℕ) (idx : Mat ℕ)
    (hB : scores ≠ []) (i : ℕ) (hi : i < idx.length) :
    ∀ x ∈ (filter_by_top_p scores p mtk (Option.some idx)).2.getD i [],
      ∃ j, j < (idx.headD []).length ∧ x = (idx.getD i []).getD j 0 := by
  have heq : (filter_by_top_p scores p mtk (Option.some idx)).2
      = idx.map (fun row =>
          (((scores.map (fun r => (idx.headD []).map (fun j => r.getD j 0))).map
            (fun r => (torchSortRow r).2.take
              (((scores.map (fun r' => (idx.headD []).map (fun j => r'.getD j 0))).map
                (nKeep p mtk (scores.headD []).length)).foldl max 0))).headD []).map
            (fun j => row.getD j 0)) := rfl
  intro x hx
  rw [heq, getD_map_of_lt _ idx i hi []] at hx
  rcases List.mem_map.mp hx with ⟨j, hj, rfl⟩
  refine ⟨j, ?_, rfl⟩
  cases scores with
  | nil => exact absurd rfl hB
  | cons r t =>
    simp only [List.map_cons, List.headD_cons] at hj
    have hj' := List.take_subset _ _ hj
    have hlt := torchSortRow_snd_lt ((idx.headD []).map (fun jj => r.getD jj 0)) j hj'
    simpa using hlt

/-- Claim C2: for every score matrix, legal `top_k` and `top_p` both
provided, and every batch row `i`, the vocabulary indices kept by
`top_k_top_p_filtering(scores, top_k, top_p)` for row `i` form a subset of
the indices that plain top-k filtering `top_k_top_p_filtering(scores,
top_k, None)` keeps for row `i`. -/
theorem topk_then_topp_subset (scores : Mat ℝ) (V k : ℕ) (p : ℚ)
    (hB : scores ≠ []) (hV : ∀ row ∈ scores, row.length = V) (hV1 : 1 ≤ V)
    (hk : 0 < k) (hp0 : 0 < p) (hp1 : p ≤ 1)
    (i : ℕ) (hi : i < scores.length) :
    ∃ cv ci kv ki,
      top_k_top_p_filtering scores (Py.int k) (Py.float p) (Py.int 1)
          = Except.ok (cv, ci) ∧
      top_k_top_p_filtering scores (Py.int k) Py.none (Py.int 1)
          = Except.ok (kv, ki) ∧
      ∀ x ∈ ci.getD i [], x ∈ ki.getD i [] := by
  have hw : (scores.headD []).length = V := by
    cases scores with
    | nil => exact absurd rfl hB
    | cons r t => exact hV r (by simp)
  have hmtk1 : 1 ≤ (scores.headD []).length := by omega
  have hki2 : (filter_by_top_k scores k 1).2
      = scores.map (fun row =>
          (torchTopkRow row (safe_size 1 (scores.headD []).length k)).2) := rfl
  refine ⟨(filter_by_top_p scores (p : ℝ) 1
        (Option.some (filter_by_top_k scores k 1).2)).1,
      (filter_by_top_p scores (p : ℝ) 1
        (Option.some (filter_by_top_k scores k 1).2)).2,
      (filter_by_top_k scores k 1).1, (filter_by_top_k scores k 1).2,
      filtering_eq_both scores k p 1 hk hp0 hp1 hmtk1,
      filtering_eq_top_k scores k 1 hk hmtk1, ?_⟩
  intro x hx
  have hidxlen : (filter_by_top_k scores k 1).2.length = scores.length := by
    rw [hki2, List.length_map]
  obtain ⟨j, hjlen, rfl⟩ := filter_by_top_p_some_mem scores (p : ℝ) 1
    (filter_by_top_k scores k 1).2 hB i (by rw [hidxlen]; exact hi) x hx
  have h0lt : 0 < scores.length := List.length_pos.mpr hB
  have hhead : (filter_by_top_k scores k 1).2.headD []
      = (torchTopkRow (scores.getD 0 []) (safe_size 1 (scores.headD []).length k)).2 := by
    rw [headD_eq_getD_zero, hki2, getD_map_of_lt _ scores 0 h0lt []]
  have hrow : (filter_by_top_k scores k 1).2.getD i []
      = (torchTopkRow (scores.getD i []) (safe_size 1 (scores.headD []).length k)).2 := by
    rw [hki2, getD_map_of_lt _ scores i hi []]
  have hlen0 : ((filter_by_top_k scores k 1).2.headD []).length
      = min (safe_size 1 (scores.headD []).length k) V := by
    rw [hhead, torchTopkRow_snd_length, hV _ (getD_mem_of_lt scores 0 h0lt [])]
  have hleni : ((filter_by_top_k scores k 1).2.getD i []).length
      = min (safe_size 1 (scores.headD []).length k) V := by
    rw [hrow, torchTopkRow_snd_length, hV _ (getD_mem_of_lt scores i hi [])]
  exact getD_mem_of_lt _ j (by rw [hleni, ← hlen0]; exact hjlen) 0

/-- Witness for claim C2: the subset law applied to the concrete batch
`[[0, 0]]` with `top_k = 1`, `top_p = 1/2`, row `0`. -/
theorem topk_then_topp_subset_witness :
    ∃ cv ci kv ki,
      top_k_top_p_filtering [[(0:ℝ), 0]] (Py.int 1) (Py.float (1/2)) (Py.int 1)
          = Except.ok (cv, ci) ∧
      top_k_top_p_filtering [[(0:ℝ), 0]] (Py.int 1) Py.none (Py.int 1)
          = Except.ok (kv, ki) ∧
      ∀ x ∈ ci.getD 0 [], x ∈ ki.getD 0 [] :=
  topk_then_topp_subset [[(0:ℝ), 0]] 2 1 (1/2) (by simp)
    (by intro row hr; rw [List.mem_singleton] at hr; rw [hr]; rfl) (by norm_num)
    (by norm_num) (by norm_num) (by norm_num) 0 (by norm_num)

/-! ## Generation loops

The model adapter is an opaque function argument `model tokens cache_ids
start_ids`.  Each loop also returns the trace of the model calls it makes
(the tokens fed and the cache ids) so that statements about the interaction
with the model can be made; the flag-tracked llama loop additionally
returns a per-step log. `torch.multinomial` is modelled by the oracle
`pick step row`, corrected to a positive-probability position. -/

/-- The opaque `start_ids` argument, threaded through unchanged. -/
abbrev StartIds := Option (List ℕ)

/-- A token matrix (batch of token-id rows). -/
abbrev Tokens := Mat ℤ

/-- `exp` as applied to a possibly `-inf` score: `exp(-inf) = 0`. -/
noncomputable def expW : WithBot ℝ → ℝ := WithBot.recBotCoe 0 Real.exp

/-- `torch.nn.functional.softmax` on a row that may contain `-inf`. -/
noncomputable def softmaxW (row : List (WithBot ℝ)) : List ℝ :=
  row.map (fun x => expW x / (row.map expW).sum)

/-- `torch.multinomial(probs, num_samples=1, replacement=True)` for one row:
a position that carries positive probability mass.  The drawn position is
supplied by the oracle `k`; if the oracle's choice is out of range or has no
probability mass it is corrected to the first positive-probability position
(multinomial never returns a zero-probability category). -/
noncomputable def multinomial1 (probs : List ℝ) (k : ℕ) : ℕ :=
  if k < probs.length ∧ 0 < probs.getD k 0 then k
  else probs.findIdx (fun x => decide (0 < x))

/-- `next_token_scores /= temperature` (applied only when `temperature ≠ 1`,
as in the source). -/
noncomputable def llamaScaled (temperature : ℚ) (scores : Mat ℝ) : Mat ℝ :=
  if temperature ≠ 1 then
    scores.map (fun row => row.map (fun x => x / (temperature : ℝ)))
  else scores

/-- The sampled tokens of one llama decode step: softmax over the filtered
values, a multinomial draw per row (position oracle `pick cur_len row`), and
`torch.gather` of the kept indices at the drawn positions. -/
noncomputable def llamaInputs (pick : ℕ → ℕ → ℕ) (cur_len : ℕ)
    (top_values : Mat (WithBot ℝ)) (top_indices : Mat ℕ) : List ℤ :=
  let probs := top_values.map softmaxW
  let inputs_in_topk := probs.mapIdx (fun i row => multinomial1 row (pick cur_len i))
  (top_indices.zip inputs_in_topk).map (fun ri => ((ri.1.getD ri.2 0 : ℕ) : ℤ))

/-- `done_flags = torch.logical_or(done_flags, inputs == eos_token_id)`. -/
def llamaDone (eos_token_id : ℤ) (done_flags : List Bool) (inputs : List ℤ) : List Bool :=
  (done_flags.zip inputs).map (fun di => di.1 || decide (di.2 = eos_token_id))

/-- `torch.where(done_flags == True, eos_token_id, inputs)`: the column that
is appended to the output. -/
def llamaCol (eos_token_id : ℤ) (done_flags : List Bool) (inputs : List ℤ) : List ℤ :=
  (done_flags.zip inputs).map (fun di => if di.1 then eos_token_id else di.2)

/-- `tokens.append(col)` followed by the final `torch.cat(tokens, dim=-1)`:
appending one column to the accumulated token matrix. -/
def appendCol (tokens : Tokens) (col : List ℤ) : Tokens :=
  (tokens.zip col).map (fun rc => rc.1 ++ [rc.2])

/-- One step of the flag-tracked loop, as recorded in the step log. -/
structure StepLog where
  curLen : ℕ
  rawInputs : List ℤ
  doneAfter : List Bool
  appended : List ℤ
  fed : Option (List ℤ)

/-- The observable outcome of `sample_loop_llama`: the token matrix, the
decode-time model calls (tokens fed, cache ids), and the per-step log. -/
structure LlamaOut where
  result : Tokens
  calls : List (Tokens × List ℕ)
  logs : List StepLog

/-- The body of the `for cur_len in range(start, sequence_length)` loop of
`sample_loop_llama` (sampling.py, lines 183-209): temperature scaling,
combined filtering, softmax + multinomial draw, gather back to vocabulary
ids, done-flag update, EOS padding of the appended column, the
break-or-forward decision. -/
noncomputable def sample_loop_llama_go
    (model : Tokens → List ℕ → StartIds → Mat ℝ) (start_ids : StartIds)
    (sequence_length : ℕ) (eos_token_id : ℤ) (top_k top_p : Py) (temperature : ℚ)
    (pick : ℕ → ℕ → ℕ) (cur_len : ℕ) (next_token_scores : Mat ℝ)
    (done_flags : List Bool) (tokens : Tokens) :
    Except String LlamaOut :=
  if h : cur_len < sequence_length then
    match top_k_top_p_filtering (llamaScaled temperature next_token_scores) top_k top_p with
    | Except.error e => Except.error e
    | Except.ok (top_values, top_indices) =>
      let inputs := llamaInputs pick cur_len top_values top_indices
      let done1 := llamaDone eos_token_id done_flags inputs
      let col := llamaCol eos_token_id done1 inputs
      let tokens1 := appendCol tokens col
      if cur_len + 1 ≥ sequence_length ∨ done1.all (fun b => b) then
        Except.ok
          { result := tokens1,
            calls := [],
            logs := [{ curLen := cur_len, rawInputs := inputs, doneAfter := done1,
                       appended := col, fed := Option.none }] }
      else
        let inputs_mat : Tokens := inputs.map (fun t => [t])
        let cache_ids := [cur_len]
        match sample_loop_llama_go model start_ids sequence_length eos_token_id top_k
            top_p temperature pick (cur_len + 1) (model inputs_mat cache_ids start_ids)
            done1 tokens1 with
        | Except.error e => Except.error e
        | Except.ok out =>
          Except.ok
            { result := out.result,
              calls := (inputs_mat, cache_ids) :: out.calls,
              logs := { curLen := cur_len, rawInputs := inputs, doneAfter := done1,
                        appended := col, fed := Option.some inputs } :: out.logs }
  else
    Except.ok { result := tokens, calls := [], logs := [] }
termination_by sequence_length - cur_len
decreasing_by omega

/-- Embedding of `sample_loop_llama` (sampling.py, lines 171-210):
hyperparameter validation, the temperature check, then the flag-tracked
decode loop starting from the prompt scores. -/
noncomputable def sample_loop_llama (model : Tokens → List ℕ → StartIds → Mat ℝ)
    (input_ids : Tokens) (start_ids : StartIds) (next_token_scores : Mat ℝ)
    (sequence_length : ℕ) (eos_token_id : ℤ) (top_k top_p temperature : Py)
    (pick : ℕ → ℕ → ℕ) : Except String LlamaOut :=
  match validate_top_k_top_p_min_tokens_to_keep top_k top_p Py.none with
  | Except.error e => Except.error e
  | Except.ok _ =>
    if ¬ (temperature.isFloat ∧ 0 < temperature.floatVal) then
      Except.error "temperature` has to be a strictly positive float."
    else
      sample_loop_llama_go model start_ids sequence_length eos_token_id top_k top_p
        temperature.floatVal pick (input_ids.headD []).length next_token_scores
        (List.replicate input_ids.length false) input_ids

/-- Embedding of `sample_llama` (sampling.py, lines 213-223): validation,
one prefill forward call over the whole prompt with cache ids `[0, L0)`,
then `sample_loop_llama`.  The second component is the list of model calls
made directly by `sample_llama` (the prefill call), which happens before
`sample_loop_llama` checks the temperature. -/
noncomputable def sample_llama (model : Tokens → List ℕ → StartIds → Mat ℝ)
    (input_ids : Tokens) (start_ids : StartIds) (sequence_length : ℕ)
    (eos_token_id : ℤ) (top_k top_p temperature : Py) (pick : ℕ → ℕ → ℕ) :
    Except String LlamaOut × List (Tokens × List ℕ) :=
  match validate_top_k_top_p_min_tokens_to_keep top_k top_p Py.none with
  | Except.error e => (Except.error e, [])
  | Except.ok _ =>
    let start := (input_ids.headD []).length
    let cache_ids := List.range start
    let next_token_scores := model input_ids cache_ids start_ids
    (sample_loop_llama model input_ids start_ids next_token_scores sequence_length
       eos_token_id top_k top_p temperature pick,
     [(input_ids, cache_ids)])

/-! ## Shape lemmas for the loop building blocks -/

theorem top_k_top_p_filtering_lengths (scores : Mat ℝ) (k p m : Py)
    (v : Mat (WithBot ℝ)) (idx : Mat ℕ)
    (h : top_k_top_p_filtering scores k p m = Except.ok (v, idx)) :
    v.length = scores.length ∧ idx.length = scores.length := by
  unfold top_k_top_p_filtering at h
  cases hval : validate_top_k_top_p_min_tokens_to_keep k p m with
  | error e => rw [hval] at h; exact absurd h (by simp)
  | ok u =>
    rw [hval] at h
    simp only [] at h
    split at h
    · obtain ⟨h1, h2⟩ := Prod.mk.injEq .. ▸ (Except.ok.inj h)
      subst h1; subst h2
      constructor <;> simp [input_value_and_indices]
    · split at h
      · obtain ⟨h1, h2⟩ := Prod.mk.injEq .. ▸ (Except.ok.inj h)
        subst h1; subst h2
        constructor <;> simp [filter_by_top_k]
      · split at h
        · obtain ⟨h1, h2⟩ := Prod.mk.injEq .. ▸ (Except.ok.inj h)
          subst h1; subst h2
          constructor <;> simp [filter_by_top_p, List.length_zip]
        · obtain ⟨h1, h2⟩ := Prod.mk.injEq .. ▸ (Except.ok.inj h)
          subst h1; subst h2
          constructor <;> simp [filter_by_top_p, filter_by_top_k, List.length_zip]

theorem llamaScaled_length (t : ℚ) (scores : Mat ℝ) :
    (llamaScaled t scores).length = scores.length := by
  unfold llamaScaled
  split <;> simp

theorem llamaInputs_length (pick : ℕ → ℕ → ℕ) (c : ℕ) (tv : Mat (WithBot ℝ)) (ti : Mat ℕ)
    (h : tv.length = ti.length) :
    (llamaInputs pick c tv ti).length = ti.length := by
  simp [llamaInputs, List.length_zip, h]

theorem llamaDone_length (eos : ℤ) (done : List Bool) (inputs : List ℤ) :
    (llamaDone eos done inputs).length = min done.length inputs.length := by
  simp [llamaDone, List.length_zip]

theorem llamaCol_length (eos : ℤ) (done : List Bool) (inputs : List ℤ) :
    (llamaCol eos done inputs).length = min done.length inputs.length := by
  simp [llamaCol, List.length_zip]

theorem appendCol_length (tokens : Tokens) (col : List ℤ) :
    (appendCol tokens col).length = min tokens.length col.length := by
  simp [appendCol, List.length_zip]

theorem llamaDone_getD (eos : ℤ) (done : List Bool) (inputs : List ℤ) (i : ℕ)
    (h1 : i < done.length) (h2 : i < inputs.length) :
    (llamaDone eos done inputs).getD i false
      = (done.getD i false || decide (inputs.getD i 0 = eos)) := by
  unfold llamaDone
  rw [getD_map_of_lt _ _ i (by rw [List.length_zip]; omega) (false, 0),
    getD_zip_of_lt _ _ i h1 h2]

theorem llamaCol_getD (eos : ℤ) (done : List Bool) (inputs : List ℤ) (i : ℕ)
    (h1 : i < done.length) (h2 : i < inputs.length) :
    (llamaCol eos done inputs).getD i 0
      = if done.getD i false then eos else inputs.getD i 0 := by
  unfold llamaCol
  rw [getD_map_of_lt _ _ i (by rw [List.length_zip]; omega) (false, 0),
    getD_zip_of_lt _ _ i h1 h2]

theorem appendCol_getD (tokens : Tokens) (col : List ℤ) (i : ℕ)
    (h1 : i < tokens.length) (h2 : i < col.length) :
    (appendCol tokens col).getD i [] = tokens.getD i [] ++ [col.getD i 0] := by
  unfold appendCol
  rw [getD_map_of_lt _ _ i (by rw [List.length_zip]; omega) ([], 0),
    getD_zip_of_lt _ _ i h1 h2]

/-- Structural run lemma for the flag-tracked decode loop: row counts, how
each output row extends its input row, the per-step `cur_len` bookkeeping,
the cache ids of the decode model calls, the per-log shapes, and the
pairing of the model calls with the logs. -/
theorem llama_go_spec (model : Tokens → List ℕ → StartIds → Mat ℝ) (start_ids : StartIds)
    (L : ℕ) (eos : ℤ) (tk tp : Py) (temp : ℚ) (pick : ℕ → ℕ → ℕ) (B : ℕ)
    (hmodel : ∀ t c s, (model t c s).length = B) :
    ∀ n cur_len scores done tokens out,
      L - cur_len ≤ n →
      scores.length = B → done.length = B → tokens.length = B →
      sample_loop_llama_go model start_ids L eos tk tp temp pick cur_len scores done tokens
        = Except.ok out →
      out.result.length = B ∧
      (∀ i, i < B → ∃ t, out.result.getD i [] = tokens.getD i [] ++ t ∧
        t.length = out.logs.length) ∧
      (∀ j (hj : j < out.logs.length), (out.logs.get ⟨j, hj⟩).curLen = cur_len + j) ∧
      out.calls.map Prod.snd = (List.range' cur_len out.calls.length).map (fun c => [c]) ∧
      (∀ log ∈ out.logs, log.doneAfter.length = B ∧ log.rawInputs.length = B ∧
        log.appended = llamaCol eos log.doneAfter log.rawInputs) ∧
      (out.calls.length + 1 = out.logs.length ∨ (out.calls = [] ∧ out.logs = [])) ∧
      (cur_len < L → out.logs ≠ []) ∧
      (∀ j (hj : j < out.calls.length) (hj' : j < out.logs.length),
        (out.calls.get ⟨j, hj⟩).1
            = (out.logs.get ⟨j, hj'⟩).rawInputs.map (fun t => [t]) ∧
        (out.logs.get ⟨j, hj'⟩).fed
            = Option.some (out.logs.get ⟨j, hj'⟩).rawInputs) := by
  intro n
  induction n with
  | zero =>
    intro cur_len scores done tokens out hn hs hd ht h
    have hge : ¬ cur_len < L := by omega
    rw [sample_loop_llama_go, dif_neg hge] at h
    injection h with h'
    subst h'
    refine ⟨ht, ?_, ?_, by simp [List.range'], by simp, Or.inr ⟨rfl, rfl⟩,
      fun hcontra => absurd hcontra hge, ?_⟩
    · intro i hiB
      exact ⟨[], by simp, by simp⟩
    · intro j hj
      exact absurd hj (by simp)
    · intro j hj
      exact absurd hj (by simp)
  | succ n ih =>
    intro cur_len scores done tokens out hn hs hd ht h
    by_cases hlt : cur_len < L
    case neg =>
      rw [sample_loop_llama_go, dif_neg hlt] at h
      injection h with h'
      subst h'
      refine ⟨ht, ?_, ?_, by simp [List.range'], by simp, Or.inr ⟨rfl, rfl⟩,
        fun hcontra => absurd hcontra hlt, ?_⟩
      · intro i hiB
        exact ⟨[], by simp, by simp⟩
      · intro j hj
        exact absurd hj (by simp)
      · intro j hj
        exact absurd hj (by simp)
    case pos =>
      rw [sample_loop_llama_go, dif_pos hlt] at h
      cases hfil : top_k_top_p_filtering (llamaScaled temp scores) tk tp with
      | error e =>
        rw [hfil] at h
        exact absurd h (by simp)
      | ok vi =>
        obtain ⟨tv, ti⟩ := vi
        rw [hfil] at h
        simp only [] at h
        have hfl := top_k_top_p_filtering_lengths _ _ _ _ _ _ hfil
        have hsl : (llamaScaled temp scores).length = B := by
          rw [llamaScaled_length, hs]
        have htv : tv.length = B := by rw [hfl.1, hsl]
        have hti : ti.length = B := by rw [hfl.2, hsl]
        have hinp : (llamaInputs pick cur_len tv ti).length = B := by
          rw [llamaInputs_length _ _ _ _ (htv.trans hti.symm), hti]
        have hd1 : (llamaDone eos done (llamaInputs pick cur_len tv ti)).length = B := by
          rw [llamaDone_length, hd, hinp]
          omega
        have hcl : (llamaCol eos (llamaDone eos done (llamaInputs pick cur_len tv ti))
            (llamaInputs pick cur_len tv ti)).length = B := by
          rw [llamaCol_length, hd1, hinp]
          omega
        have ht1 : (appendCol tokens (llamaCol eos
            (llamaDone eos done (llamaInputs pick cur_len tv ti))
            (llamaInputs pick cur_len tv ti))).length = B := by
          rw [appendCol_length, ht, hcl]
          omega
        split at h
        case isTrue hbr =>
          injection h with h'
          subst h'
          refine ⟨ht1, ?_, ?_, by simp [List.range'], ?_, Or.inl (by simp), by simp, ?_⟩
          · intro i hiB
            refine ⟨[(llamaCol eos (llamaDone eos done (llamaInputs pick cur_len tv ti))
                (llamaInputs pick cur_len tv ti)).getD i 0], ?_, by simp⟩
            exact appendCol_getD _ _ i (by omega) (by omega)
          · intro j hj
            simp only [List.length_cons, List.length_nil] at hj
            have hj0 : j = 0 := by omega
            subst hj0
            simp [List.get]
          · intro log hlog
            rw [List.mem_singleton] at hlog
            subst hlog
            exact ⟨hd1, hinp, rfl⟩
          · intro j hj
            exact absurd hj (by simp)
        case isFalse hbr =>
          have hnext : cur_len + 1 < L := by
            rcases not_or.mp hbr with ⟨hb1, _⟩
            omega
          split at h
          case h_1 e heqrec =>
            exact absurd h (by simp)
          case h_2 out' heqrec =>
            injection h with h'
            subst h'
            have ihs := ih (cur_len + 1)
              (model ((llamaInputs pick cur_len tv ti).map (fun t => [t])) [cur_len] start_ids)
              (llamaDone eos done (llamaInputs pick cur_len tv ti))
              (appendCol tokens (llamaCol eos
                (llamaDone eos done (llamaInputs pick cur_len tv ti))
                (llamaInputs pick cur_len tv ti)))
              out' (by omega) (hmodel _ _ _) hd1 ht1 heqrec
            have hcalls1 : out'.calls.length + 1 = out'.logs.length := by
              rcases ihs.2.2.2.2.2.1 with hc | ⟨_, hlogsnil⟩
              · exact hc
              · exact absurd hlogsnil (ihs.2.2.2.2.2.2.1 hnext)
            refine ⟨ihs.1, ?_, ?_, ?_, ?_, ?_, by simp, ?_⟩
            · intro i hiB
              obtain ⟨t, hteq, htlen⟩ := ihs.2.1 i hiB
              refine ⟨(llamaCol eos (llamaDone eos done (llamaInputs pick cur_len tv ti))
                  (llamaInputs pick cur_len tv ti)).getD i 0 :: t, ?_, ?_⟩
              · show out'.result.getD i [] = _
                rw [hteq, appendCol_getD _ _ i (by omega) (by omega)]
                simp
              · simp [htlen]
            · intro j hj
              cases j with
              | zero => simp [List.get]
              | succ j' =>
                simp only [List.length_cons] at hj
                have hj'' : j' < out'.logs.length := by omega
                have := ihs.2.2.1 j' hj''
                simp only [List.get_cons_succ]
                rw [this]
                omega
            · simp only [List.map_cons, List.length_cons]
              rw [List.range'_succ]
              simp only [List.map_cons]
              rw [ihs.2.2.2.1]
            · intro log hlog
              rcases List.mem_cons.mp hlog with hlog | hlog
              · subst hlog
                exact ⟨hd1, hinp, rfl⟩
              · exact ihs.2.2.2.2.1 log hlog
            · left
              simp only [List.length_cons]
              omega
            · intro j hj hj'
              cases j with
              | zero => exact ⟨rfl, rfl⟩
              | succ j' =>
                simp only [List.length_cons] at hj hj'
                exact ihs.2.2.2.2.2.2.2 j' (by omega) (by omega)

/-- Done flags that are already set when the loop is entered stay set in
every logged step, and the appended token for such a sequence is always
`eos`. -/
theorem llama_go_done_persist (model : Tokens → List ℕ → StartIds → Mat ℝ)
    (start_ids : StartIds) (L : ℕ) (eos : ℤ) (tk tp : Py) (temp : ℚ)
    (pick : ℕ → ℕ → ℕ) (B : ℕ)
    (hmodel : ∀ t c s, (model t c s).length = B) :
    ∀ n cur_len scores done tokens out,
      L - cur_len ≤ n →
      scores.length = B → done.length = B → tokens.length = B →
      sample_loop_llama_go model start_ids L eos tk tp temp pick cur_len scores done tokens
        = Except.ok out →
      ∀ i, i < B → done.getD i false = true →
        ∀ log ∈ out.logs,
          log.doneAfter.getD i false = true ∧ log.appended.getD i 0 = eos := by
  intro n
  induction n with
  | zero =>
    intro cur_len scores done tokens out hn hs hd ht h i hi hdone log hlog
    have hge : ¬ cur_len < L := by omega
    rw [sample_loop_llama_go, dif_neg hge] at h
    injection h with h'
    subst h'
    exact absurd hlog (by simp)
  | succ n ih =>
    intro cur_len scores done tokens out hn hs hd ht h i hi hdone log hlog
    by_cases hlt : cur_len < L
    case neg =>
      rw [sample_loop_llama_go, dif_neg hlt] at h
      injection h with h'
      subst h'
      exact absurd hlog (by simp)
    case pos =>
      rw [sample_loop_llama_go, dif_pos hlt] at h
      cases hfil : top_k_top_p_filtering (llamaScaled temp scores) tk tp with
      | error e =>
        rw [hfil] at h
        exact absurd h (by simp)
      | ok vi =>
        obtain ⟨tv, ti⟩ := vi
        rw [hfil] at h
        simp only [] at h
        have hfl := top_k_top_p_filtering_lengths _ _ _ _ _ _ hfil
        have hsl : (llamaScaled temp scores).length = B := by
          rw [llamaScaled_length, hs]
        have htv : tv.length = B := by rw [hfl.1, hsl]
        have hti : ti.length = B := by rw [hfl.2, hsl]
        have hinp : (llamaInputs pick cur_len tv ti).length = B := by
          rw [llamaInputs_length _ _ _ _ (htv.trans hti.symm), hti]
        have hd1 : (llamaDone eos done (llamaInputs pick cur_len tv ti)).length = B := by
          rw [llamaDone_length, hd, hinp]
          omega
        have ht1 : (appendCol tokens (llamaCol eos
            (llamaDone eos done (llamaInputs pick cur_len tv ti))
            (llamaInputs pick cur_len tv ti))).length = B := by
          rw [appendCol_length, ht, llamaCol_length, hd1, hinp]
          omega
        have hstepdone : (llamaDone eos done (llamaInputs pick cur_len tv ti)).getD i false
            = true := by
          rw [llamaDone_getD eos done _ i (by omega) (by omega), hdone]
          simp
        have hstepcol : (llamaCol eos (llamaDone eos done (llamaInputs pick cur_len tv ti))
            (llamaInputs pick cur_len tv ti)).getD i 0 = eos := by
          rw [llamaCol_getD eos _ _ i (by omega) (by omega), hstepdone]
          simp
        split at h
        case isTrue hbr =>
          injection h with h'
          subst h'
          rw [List.mem_singleton] at hlog
          subst hlog
          exact ⟨hstepdone, hstepcol⟩
        case isFalse hbr =>
          split at h
          case h_1 e heqrec =>
            exact absurd h (by simp)
          case h_2 out' heqrec =>
            injection h with h'
            subst h'
            rcases List.mem_cons.mp hlog with hlog | hlog
            · subst hlog
              exact ⟨hstepdone, hstepcol⟩
            · exact ih (cur_len + 1) _ _ _ out' (by omega) (hmodel _ _ _) hd1 ht1
                heqrec i hi hstepdone log hlog

/-- Done flags are monotone along the logged steps, and from the step a flag
is set onwards the appended token for that sequence is `eos`. -/
theorem llama_go_done_mono (model : Tokens → List ℕ → StartIds → Mat ℝ)
    (start_ids : StartIds) (L : ℕ) (eos : ℤ) (tk tp : Py) (temp : ℚ)
    (pick : ℕ → ℕ → ℕ) (B : ℕ)
    (hmodel : ∀ t c s, (model t c s).length = B) :
    ∀ n cur_len scores done tokens out,
      L - cur_len ≤ n →
      scores.length = B → done.length = B → tokens.length = B →
      sample_loop_llama_go model start_ids L eos tk tp temp pick cur_len scores done tokens
        = Except.ok out →
      ∀ i, i < B → ∀ k k' (hk : k < out.logs.length) (hk' : k' < out.logs.length),
        k ≤ k' →
        (out.logs.get ⟨k, hk⟩).doneAfter.getD i false = true →
        (out.logs.get ⟨k', hk'⟩).doneAfter.getD i false = true ∧
        (out.logs.get ⟨k', hk'⟩).appended.getD i 0 = eos := by
  intro n
  induction n with
  | zero =>
    intro cur_len scores done tokens out hn hs hd ht h i hi k k' hk hk' hkk hdone
    have hge : ¬ cur_len < L := by omega
    rw [sample_loop_llama_go, dif_neg hge] at h
    injection h with h'
    subst h'
    exact absurd hk (by simp)
  | succ n ih =>
    intro cur_len scores done tokens out hn hs hd ht h i hi k k' hk hk' hkk hdone
    by_cases hlt : cur_len < L
    case neg =>
      rw [sample_loop_llama_go, dif_neg hlt] at h
      injection h with h'
      subst h'
      exact absurd hk (by simp)
    case pos =>
      rw [sample_loop_llama_go, dif_pos hlt] at h
      cases hfil : top_k_top_p_filtering (llamaScaled temp scores) tk tp with
      | error e =>
        rw [hfil] at h
        exact absurd h (by simp)
      | ok vi =>
        obtain ⟨tv, ti⟩ := vi
        rw [hfil] at h
        simp only [] at h
        have hfl := top_k_top_p_filtering_lengths _ _ _ _ _ _ hfil
        have hsl : (llamaScaled temp scores).length = B := by
          rw [llamaScaled_length, hs]
        have htv : tv.length = B := by rw [hfl.1, hsl]
        have hti : ti.length = B := by rw [hfl.2, hsl]
        have hinp : (llamaInputs pick cur_len tv ti).length = B := by
          rw [llamaInputs_length _ _ _ _ (htv.trans hti.symm), hti]
        have hd1 : (llamaDone eos done (llamaInputs pick cur_len tv ti)).length = B := by
          rw [llamaDone_length, hd, hinp]
          omega
        have ht1 : (appendCol tokens (llamaCol eos
            (llamaDone eos done (llamaInputs pick cur_len tv ti))
            (llamaInputs pick cur_len tv ti))).length = B := by
          rw [appendCol_length, ht, llamaCol_length, hd1, hinp]
          omega
        split at h
        case isTrue hbr =>
          injection h with h'
          subst h'
          simp only [List.length_cons, List.length_nil] at hk hk'
          have hk0 : k = 0 := by omega
          have hk'0 : k' = 0 := by omega
          subst hk0
          subst hk'0
          simp only [List.get] at hdone ⊢
          refine ⟨hdone, ?_⟩
          rw [llamaCol_getD eos _ _ i (by omega) (by omega), hdone]
          simp
        case isFalse hbr =>
          split at h
          case h_1 e heqrec =>
            exact absurd h (by simp)
          case h_2 out' heqrec =>
            injection h with h'
            subst h'
            cases k with
            | zero =>
              simp only [List.get] at hdone
              cases k' with
              | zero =>
                simp only [List.get]
                refine ⟨hdone, ?_⟩
                rw [llamaCol_getD eos _ _ i (by omega) (by omega), hdone]
                simp
              | succ k'' =>
                simp only [List.length_cons] at hk'
                simp only [List.get_cons_succ]
                exact llama_go_done_persist model start_ids L eos tk tp temp pick B hmodel
                  n (cur_len + 1) _ _ _ out' (by omega) (hmodel _ _ _) hd1 ht1 heqrec
                  i hi hdone _ (List.get_mem _ _ _)
            | succ k'' =>
              cases k' with
              | zero => exact absurd hkk (by omega)
              | succ k''' =>
                simp only [List.length_cons] at hk hk'
                simp only [List.get_cons_succ] at hdone ⊢
                exact ih (cur_len + 1) _ _ _ out' (by omega) (hmodel _ _ _) hd1 ht1
                  heqrec i hi k'' k''' (by omega) (by omega) (by omega) hdone

/-- If some logged step observes all done flags true, it is the last logged
step and no model call is made at or after it. -/
theorem llama_go_all_done_stop (model : Tokens → List ℕ → StartIds → Mat ℝ)
    (start_ids : StartIds) (L : ℕ) (eos : ℤ) (tk tp : Py) (temp : ℚ)
    (pick : ℕ → ℕ → ℕ) :
    ∀ n cur_len scores done tokens out,
      L - cur_len ≤ n →
      sample_loop_llama_go model start_ids L eos tk tp temp pick cur_len scores done tokens
        = Except.ok out →
      ∀ k (hk : k < out.logs.length),
        (out.logs.get ⟨k, hk⟩).doneAfter.all (fun b => b) = true →
        k + 1 = out.logs.length ∧ out.calls.length = k := by
  intro n
  induction n with
  | zero =>
    intro cur_len scores done tokens out hn h k hk hall
    have hge : ¬ cur_len < L := by omega
    rw [sample_loop_llama_go, dif_neg hge] at h
    injection h with h'
    subst h'
    exact absurd hk (by simp)
  | succ n ih =>
    intro cur_len scores done tokens out hn h k hk hall
    by_cases hlt : cur_len < L
    case neg =>
      rw [sample_loop_llama_go, dif_neg hlt] at h
      injection h with h'
      subst h'
      exact absurd hk (by simp)
    case pos =>
      rw [sample_loop_llama_go, dif_pos hlt] at h
      cases hfil : top_k_top_p_filtering (llamaScaled temp scores) tk tp with
      | error e =>
        rw [hfil] at h
        exact absurd h (by simp)
      | ok vi =>
        obtain ⟨tv, ti⟩ := vi
        rw [hfil] at h
        simp only [] at h
        split at h
        case isTrue hbr =>
          injection h with h'
          subst h'
          simp only [List.length_cons, List.length_nil] at hk
          have hk0 : k = 0 := by omega
          subst hk0
          exact ⟨by simp, by simp⟩
        case isFalse hbr =>
          split at h
          case h_1 e heqrec =>
            exact absurd h (by simp)
          case h_2 out' heqrec =>
            injection h with h'
            subst h'
            cases k with
            | zero =>
              simp only [List.get] at hall
              exact absurd (Or.inr hall) hbr
            | succ k'' =>
              simp only [List.length_cons] at hk
              simp only [List.get_cons_succ] at hall
              obtain ⟨h1, h2⟩ := ih (cur_len + 1) _ _ _ out' (by omega) heqrec k''
                (by omega) hall
              constructor
              · simp only [List.length_cons]
                omega
              · simp only [List.length_cons]
                omega

/-- With legal `top_k` / `top_p` and a float temperature `> 0`,
`sample_loop_llama` passes validation and runs the decode loop from the
prompt length. -/
theorem sample_loop_llama_eq_go (model : Tokens → List ℕ → StartIds → Mat ℝ)
    (input_ids : Tokens) (start_ids : StartIds) (scores : Mat ℝ) (L : ℕ) (eos : ℤ)
    (tk tp : Py) (temp : ℚ) (pick : ℕ → ℕ → ℕ)
    (hk : tk = Py.none ∨ ∃ n : ℤ, tk = Py.int n ∧ 0 < n)
    (hp : tp = Py.none ∨ ∃ q : ℚ, tp = Py.float q ∧ 0 < q ∧ q ≤ 1)
    (htemp : 0 < temp) :
    sample_loop_llama model input_ids start_ids scores L eos tk tp (Py.float temp) pick
      = sample_loop_llama_go model start_ids L eos tk tp temp pick
          (input_ids.headD []).length scores (List.replicate input_ids.length false)
          input_ids := by
  have hv := validate_accepts tk tp Py.none hk hp (Or.inl rfl)
  simp only [sample_loop_llama, hv, Py.isFloat, Py.floatVal]
  rw [if_neg (by simp [htemp])]

/-! ## A concrete evaluation of one llama decode step (for witnesses) -/

theorem llamaScaled_one (scores : Mat ℝ) : llamaScaled 1 scores = scores := by
  simp [llamaScaled]

theorem filtering_nofilter_eval :
    top_k_top_p_filtering [[(0:ℝ)]] Py.none Py.none (Py.int 1)
      = Except.ok ([[((0:ℝ) : WithBot ℝ)]], [[0]]) := by
  unfold top_k_top_p_filtering
  rw [validate_accepts _ _ _ (Or.inl rfl) (Or.inl rfl) (Or.inr ⟨1, rfl, by norm_num⟩)]
  simp only []
  rw [if_pos (Or.inl ⟨by trivial, by trivial⟩)]
  simp [input_value_and_indices]
  decide

theorem expW_coe (x : ℝ) : expW ((x : ℝ) : WithBot ℝ) = Real.exp x := rfl

theorem expW_bot : expW (⊥ : WithBot ℝ) = 0 := rfl

theorem softmaxW_zero_eval : softmaxW [((0:ℝ) : WithBot ℝ)] = [1] := by
  simp only [softmaxW, List.map_cons, List.map_nil, expW_coe, Real.exp_zero,
    List.sum_cons, List.sum_nil, add_zero, div_one]

theorem multinomial1_one_eval : multinomial1 [(1:ℝ)] 0 = 0 := by
  rw [multinomial1, if_pos]
  exact ⟨by norm_num, by norm_num⟩

theorem llamaInputs_eval (c : ℕ) :
    llamaInputs (fun _ _ => 0) c [[((0:ℝ) : WithBot ℝ)]] [[0]] = [0] := by
  unfold llamaInputs
  simp [softmaxW_zero_eval, multinomial1_one_eval]

/-- A concrete one-step run of the flag-tracked loop in which the only
sequence draws the EOS token at the first decode step: the loop stops by
the all-done condition with one logged step and no decode model call. -/
theorem llama_concrete_run_allDone :
    sample_loop_llama (fun _ _ _ => [[(0:ℝ)]]) [[2]] Option.none [[(0:ℝ)]] 3 0
        Py.none Py.none (Py.float 1) (fun _ _ => 0)
      = Except.ok ⟨[[2, 0]], [], [⟨1, [0], [true], [0], Option.none⟩]⟩ := by
  rw [sample_loop_llama_eq_go _ _ _ _ _ _ _ _ _ _ (Or.inl rfl) (Or.inl rfl) (by norm_num)]
  show sample_loop_llama_go _ _ 3 0 Py.none Py.none 1 _ 1 [[(0:ℝ)]] [false] [[2]] = _
  rw [sample_loop_llama_go, dif_pos (by norm_num : (1:ℕ) < 3)]
  rw [llamaScaled_one, filtering_nofilter_eval]
  simp only [llamaInputs_eval, llamaDone, llamaCol, appendCol, List.zip_cons_cons,
    List.zip_nil_right, List.map_cons, List.map_nil]
  norm_num

/-- A concrete two-step run of the flag-tracked loop in which the sequence
never draws EOS: two logged steps, one decode model call with cache id
`[1]`, fed the raw sampled token. -/
theorem llama_concrete_run_twoSteps :
    sample_loop_llama (fun _ _ _ => [[(0:ℝ)]]) [[2]] Option.none [[(0:ℝ)]] 3 5
        Py.none Py.none (Py.float 1) (fun _ _ => 0)
      = Except.ok ⟨[[2, 0, 0]], [([[0]], [1])],
          [⟨1, [0], [false], [0], Option.some [0]⟩,
           ⟨2, [0], [false], [0], Option.none⟩]⟩ := by
  rw [sample_loop_llama_eq_go _ _ _ _ _ _ _ _ _ _ (Or.inl rfl) (Or.inl rfl) (by norm_num)]
  show sample_loop_llama_go _ _ 3 5 Py.none Py.none 1 _ 1 [[(0:ℝ)]] [false] [[2]] = _
  rw [sample_loop_llama_go, dif_pos (by norm_num : (1:ℕ) < 3)]
  rw [llamaScaled_one, filtering_nofilter_eval]
  simp only [llamaInputs_eval, llamaDone, llamaCol, appendCol, List.zip_cons_cons,
    List.zip_nil_right, List.map_cons, List.map_nil]
  norm_num
  rw [sample_loop_llama_go, dif_pos (by norm_num : (2:ℕ) < 3)]
  rw [llamaScaled_one, filtering_nofilter_eval]
  simp only [llamaInputs_eval, llamaDone, llamaCol, appendCol, List.zip_cons_cons,
    List.zip_nil_right, List.map_cons, List.map_nil]
  norm_num

/-- Claim C4: in `sample_loop_llama`, done flags are monotone per sequence
(once true at a logged step they remain true at all later logged steps),
and from the step a sequence's flag is true onwards every token appended
for that sequence equals `eos_token_id`. -/
theorem llama_done_monotone_eos_padding (model : Tokens → List ℕ → StartIds → Mat ℝ)
    (input_ids : Tokens) (start_ids : StartIds) (scores : Mat ℝ) (L : ℕ) (eos : ℤ)
    (tk tp : Py) (temp : ℚ) (pick : ℕ → ℕ → ℕ) (B : ℕ)
    (hmodel : ∀ t c s, (model t c s).length = B)
    (hB : input_ids.length = B) (hscores : scores.length = B)
    (hk : tk = Py.none ∨ ∃ n : ℤ, tk = Py.int n ∧ 0 < n)
    (hp : tp = Py.none ∨ ∃ q : ℚ, tp = Py.float q ∧ 0 < q ∧ q ≤ 1)
    (htemp : 0 < temp) (out : LlamaOut)
    (h : sample_loop_llama model input_ids start_ids scores L eos tk tp (Py.float temp)
        pick = Except.ok out)
    (i k k' : ℕ) (hi : i < B) (hk1 : k < out.logs.length) (hk2 : k' < out.logs.length)
    (hkk : k ≤ k')
    (hdone : (out.logs.get ⟨k, hk1⟩).doneAfter.getD i false = true) :
    (out.logs.get ⟨k', hk2⟩).doneAfter.getD i false = true ∧
    (out.logs.get ⟨k', hk2⟩).appended.getD i 0 = eos := by
  rw [sample_loop_llama_eq_go model input_ids start_ids scores L eos tk tp temp pick
    hk hp htemp] at h
  exact llama_go_done_mono model start_ids L eos tk tp temp pick B hmodel
    (L - (input_ids.headD []).length) _ _ _ _ out (le_refl _) hscores
    (by simp [hB]) hB h i hi k k' hk1 hk2 hkk hdone

/-- Witness for claim C4: in the concrete one-step run, the done flag of
sequence 0 is set at step 0 and the appended token is the EOS id `0`. -/
theorem llama_done_monotone_eos_padding_witness :
    (([⟨1, [0], [true], [0], Option.none⟩] : List StepLog).get
        ⟨0, by norm_num⟩).doneAfter.getD 0 false = true ∧
    (([⟨1, [0], [true], [0], Option.none⟩] : List StepLog).get
        ⟨0, by norm_num⟩).appended.getD 0 0 = 0 :=
  llama_done_monotone_eos_padding (fun _ _ _ => [[(0:ℝ)]]) [[2]] Option.none [[(0:ℝ)]]
    3 0 Py.none Py.none 1 (fun _ _ => 0) 1 (fun _ _ _ => rfl) rfl rfl
    (Or.inl rfl) (Or.inl rfl) (by norm_num)
    ⟨[[2, 0]], [], [⟨1, [0], [true], [0], Option.none⟩]⟩
    llama_concrete_run_allDone 0 0 0 (by norm_num) (by norm_num) (by norm_num)
    (by norm_num) (by simp)

/-- Claim C5: in `sample_loop_llama`, if a logged step observes every done
flag true while the next position is still short of `sequence_length`, that
step is the last one (the loop stops immediately, making no further model
forward call: the decode call count equals the step's index) and every row
of the returned matrix is strictly shorter than `sequence_length`. -/
theorem llama_batch_early_stop (model : Tokens → List ℕ → StartIds → Mat ℝ)
    (input_ids : Tokens) (start_ids : StartIds) (scores : Mat ℝ) (L : ℕ) (eos : ℤ)
    (tk tp : Py) (temp : ℚ) (pick : ℕ → ℕ → ℕ) (B : ℕ)
    (hmodel : ∀ t c s, (model t c s).length = B)
    (hB : input_ids.length = B) (hscores : scores.length = B)
    (hrows : ∀ i, i < B → (input_ids.getD i []).length = (input_ids.headD []).length)
    (hk : tk = Py.none ∨ ∃ n : ℤ, tk = Py.int n ∧ 0 < n)
    (hp : tp = Py.none ∨ ∃ q : ℚ, tp = Py.float q ∧ 0 < q ∧ q ≤ 1)
    (htemp : 0 < temp) (out : LlamaOut)
    (h : sample_loop_llama model input_ids start_ids scores L eos tk tp (Py.float temp)
        pick = Except.ok out)
    (k : ℕ) (hk1 : k < out.logs.length)
    (hall : (out.logs.get ⟨k, hk1⟩).doneAfter.all (fun b => b) = true)
    (hlen : (out.logs.get ⟨k, hk1⟩).curLen + 1 < L) :
    k + 1 = out.logs.length ∧ out.calls.length = k ∧
    ∀ i, i < B → (out.result.getD i []).length < L := by
  rw [sample_loop_llama_eq_go model input_ids start_ids scores L eos tk tp temp pick
    hk hp htemp] at h
  have hstop := llama_go_all_done_stop model start_ids L eos tk tp temp pick
    (L - (input_ids.headD []).length) _ _ _ _ out (le_refl _) h k hk1 hall
  have hspec := llama_go_spec model start_ids L eos tk tp temp pick B hmodel
    (L - (input_ids.headD []).length) _ _ _ _ out (le_refl _) hscores
    (by simp [hB]) hB h
  refine ⟨hstop.1, hstop.2, ?_⟩
  intro i hi
  obtain ⟨t, hteq, htlen⟩ := hspec.2.1 i hi
  have hcur := hspec.2.2.1 k hk1
  rw [hcur] at hlen
  rw [hteq, List.length_append, hrows i hi, htlen, ← hstop.1]
  omega

/-- Witness for claim C5: in the concrete one-step run all flags are set at
step 0 with `curLen + 1 = 2 < 3`; the step is the last, no decode call was
made, and the returned row has 2 < 3 entries. -/
theorem llama_batch_early_stop_witness :
    (0 + 1 = ([⟨1, [0], [true], [0], Option.none⟩] : List StepLog).length) ∧
    ([] : List (Tokens × List ℕ)).length = 0 ∧
    ∀ i, i < 1 → (([[2, 0]] : Tokens).getD i []).length < 3 :=
  llama_batch_early_stop (fun _ _ _ => [[(0:ℝ)]]) [[2]] Option.none [[(0:ℝ)]]
    3 0 Py.none Py.none 1 (fun _ _ => 0) 1 (fun _ _ _ => rfl) rfl rfl
    (by intro i hi; interval_cases i; rfl) (Or.inl rfl) (Or.inl rfl) (by norm_num)
    ⟨[[2, 0]], [], [⟨1, [0], [true], [0], Option.none⟩]⟩
    llama_concrete_run_allDone 0 (by norm_num) (by simp) (by norm_num)

/-- Claim C9: in `sample_loop_llama`, the token tensor fed back to the model
at each decode step is the raw sampled token column (`inputs`), not the
EOS-padded column appended to the output: the `k`-th decode call is fed
exactly the raw inputs of the `k`-th logged step, while the appended token
for a sequence is `eos` whenever its done flag is set (and the raw input
otherwise). -/
theorem llama_feeds_raw_inputs (model : Tokens → List ℕ → StartIds → Mat ℝ)
    (input_ids : Tokens) (start_ids : StartIds) (scores : Mat ℝ) (L : ℕ) (eos : ℤ)
    (tk tp : Py) (temp : ℚ) (pick : ℕ → ℕ → ℕ) (B : ℕ)
    (hmodel : ∀ t c s, (model t c s).length = B)
    (hB : input_ids.length = B) (hscores : scores.length = B)
    (hk : tk = Py.none ∨ ∃ n : ℤ, tk = Py.int n ∧ 0 < n)
    (hp : tp = Py.none ∨ ∃ q : ℚ, tp = Py.float q ∧ 0 < q ∧ q ≤ 1)
    (htemp : 0 < temp) (out : LlamaOut)
    (h : sample_loop_llama model input_ids start_ids scores L eos tk tp (Py.float temp)
        pick = Except.ok out)
    (kc : ℕ) (hkc : kc < out.calls.length) (hkl : kc < out.logs.length) :
    (out.calls.get ⟨kc, hkc⟩).1
        = (out.logs.get ⟨kc, hkl⟩).rawInputs.map (fun t => [t]) ∧
    (out.logs.get ⟨kc, hkl⟩).fed
        = Option.some (out.logs.get ⟨kc, hkl⟩).rawInputs ∧
    ∀ i, i < B → (out.logs.get ⟨kc, hkl⟩).appended.getD i 0
        = (if (out.logs.get ⟨kc, hkl⟩).doneAfter.getD i false then eos
           else (out.logs.get ⟨kc, hkl⟩).rawInputs.getD i 0) := by
  rw [sample_loop_llama_eq_go model input_ids start_ids scores L eos tk tp temp pick
    hk hp htemp] at h
  have hspec := llama_go_spec model start_ids L eos tk tp temp pick B hmodel
    (L - (input_ids.headD []).length) _ _ _ _ out (le_refl _) hscores
    (by simp [hB]) hB h
  obtain ⟨hfed1, hfed2⟩ := hspec.2.2.2.2.2.2.2 kc hkc hkl
  obtain ⟨hlen1, hlen2, happ⟩ := hspec.2.2.2.2.1 _ (List.get_mem _ _ _)
  refine ⟨hfed1, hfed2, ?_⟩
  intro i hi
  rw [happ, llamaCol_getD eos _ _ i (by omega) (by omega)]

/-- Witness for claim C9: in the concrete two-step run, the single decode
call is fed the raw sampled column `[[0]]`, as logged in step 0. -/
theorem llama_feeds_raw_inputs_witness :
    (([([[0]], [1])] : List (Tokens × List ℕ)).get ⟨0, by norm_num⟩).1
        = (([⟨1, [0], [false], [0], Option.some [0]⟩,
             ⟨2, [0], [false], [0], Option.none⟩] : List StepLog).get
            ⟨0, by norm_num⟩).rawInputs.map (fun t => [t]) ∧
    (([⟨1, [0], [false], [0], Option.some [0]⟩,
       ⟨2, [0], [false], [0], Option.none⟩] : List StepLog).get
        ⟨0, by norm_num⟩).fed
        = Option.some (([⟨1, [0], [false], [0], Option.some [0]⟩,
             ⟨2, [0], [false], [0], Option.none⟩] : List StepLog).get
            ⟨0, by norm_num⟩).rawInputs ∧
    ∀ i, i < 1 →
      (([⟨1, [0], [false], [0], Option.some [0]⟩,
         ⟨2, [0], [false], [0], Option.none⟩] : List StepLog).get
          ⟨0, by norm_num⟩).appended.getD i 0
        = (if (([⟨1, [0], [false], [0], Option.some [0]⟩,
               ⟨2, [0], [false], [0], Option.none⟩] : List StepLog).get
              ⟨0, by norm_num⟩).doneAfter.getD i false then 5
           else (([⟨1, [0], [false], [0], Option.some [0]⟩,
               ⟨2, [0], [false], [0], Option.none⟩] : List StepLog).get
              ⟨0, by norm_num⟩).rawInputs.getD i 0) :=
  llama_feeds_raw_inputs (fun _ _ _ => [[(0:ℝ)]]) [[2]] Option.none [[(0:ℝ)]]
    3 5 Py.none Py.none 1 (fun _ _ => 0) 1 (fun _ _ _ => rfl) rfl rfl
    (Or.inl rfl) (Or.inl rfl) (by norm_num)
    ⟨[[2, 0, 0]], [([[0]], [1])],
      [⟨1, [0], [false], [0], Option.some [0]⟩, ⟨2, [0], [false], [0], Option.none⟩]⟩
    llama_concrete_run_twoSteps 0 (by norm_num) (by norm_num)

/-- Claim C3 (amended): a call to `sample_llama` with legal `top_k` /
`top_p` and an illegal temperature (not a strictly positive float) fails
with `InvalidParameter` before the decode loop starts — no decode-step
model call is made and no token is produced — but only after the single
prompt prefill forward call; the temperature check runs exactly once, never
mid-loop. -/
theorem sample_llama_illegal_temperature (model : Tokens → List ℕ → StartIds → Mat ℝ)
    (input_ids : Tokens) (start_ids : StartIds) (sequence_length : ℕ)
    (eos_token_id : ℤ) (top_k top_p temperature : Py) (pick : ℕ → ℕ → ℕ)
    (hk : top_k = Py.none ∨ ∃ n : ℤ, top_k = Py.int n ∧ 0 < n)
    (hp : top_p = Py.none ∨ ∃ q : ℚ, top_p = Py.float q ∧ 0 < q ∧ q ≤ 1)
    (ht : ¬ (temperature.isFloat ∧ 0 < temperature.floatVal)) :
    sample_llama model input_ids start_ids sequence_length eos_token_id
        top_k top_p temperature pick
      = (Except.error "temperature` has to be a strictly positive float.",
         [(input_ids, List.range (input_ids.headD []).length)]) := by
  have hv := validate_accepts top_k top_p Py.none hk hp (Or.inl rfl)
  simp only [sample_llama, sample_loop_llama, hv, if_pos ht]

/-- Witness for the amended claim C3: the theorem applied at a concrete
model and an integer temperature (not a float, hence illegal). -/
theorem sample_llama_illegal_temperature_witness :
    sample_llama (fun _ _ _ => [[(0:ℝ)]]) [[5]] Option.none 3 2
        (Py.int 50) (Py.float 1) (Py.int 1) (fun _ _ => 0)
      = (Except.error "temperature` has to be a strictly positive float.",
         [([[5]], List.range 1)]) :=
  sample_llama_illegal_temperature (fun _ _ _ => [[(0:ℝ)]]) [[5]] Option.none 3 2
    (Py.int 50) (Py.float 1) (Py.int 1) (fun _ _ => 0)
    (Or.inr ⟨50, rfl, by norm_num⟩) (Or.inr ⟨1, rfl, by norm_num, by norm_num⟩)
    (by simp [Py.isFloat])

/-- Counterexample to claim C3 as stated: with an illegal temperature
(`temperature = 1`, an int, not a float) `sample_llama` does fail with
`InvalidParameter`, but only after invoking the model once for the prompt
prefill — the list of model calls made before the failure is non-empty, so
the failure is not "before any model forward invocation". -/
theorem sample_llama_temperature_not_before_forward :
    (sample_llama (fun _ _ _ => [[(0:ℝ)]]) [[5]] Option.none 3 2
        (Py.int 50) (Py.float 1) (Py.int 1) (fun _ _ => 0)).1
      = Except.error "temperature` has to be a strictly positive float." ∧
    (sample_llama (fun _ _ _ => [[(0:ℝ)]]) [[5]] Option.none 3 2
        (Py.int 50) (Py.float 1) (Py.int 1) (fun _ _ => 0)).2
      = [([[5]], [0])] := by
  constructor
  · rfl
  · rfl

/-! ## The legacy EOS-masked top-k loop (`sample_loop` / `simple_sample`) -/

/-- `next_token_scores[:, eos_token_id] = -float('inf')`: the EOS column is
forced to `-inf` before top-k selection. -/
def maskEos (eos_token_id : ℕ) (scores : Mat ℝ) : Mat (WithBot ℝ) :=
  scores.map (fun row => row.enum.map
    (fun jc => if jc.1 = eos_token_id then (⊥ : WithBot ℝ) else (jc.2 : WithBot ℝ)))

/-- The sampled tokens of one legacy decode step: `torch.topk` on the
EOS-masked scores, softmax over the top-k values, a multinomial draw per
row, and `torch.gather` of the top-k indices at the drawn positions. -/
noncomputable def legacyInputs (pick : ℕ → ℕ → ℕ) (cur_len top_k eos_token_id : ℕ)
    (scores : Mat ℝ) : List ℤ :=
  let tk := (maskEos eos_token_id scores).map (fun row => torchTopkRow row top_k)
  let probs := tk.map (fun r => softmaxW r.1)
  let inputs_in_topk := probs.mapIdx (fun i row => multinomial1 row (pick cur_len i))
  ((tk.map Prod.snd).zip inputs_in_topk).map (fun ri => ((ri.1.getD ri.2 0 : ℕ) : ℤ))

/-- The body of the `for cur_len in range(start, sequence_length)` loop of
`sample_loop` (sampling.py, lines 80-100): EOS masking, top-k, draw, append,
the break-or-forward decision.  Also returns the trace of model calls. -/
noncomputable def sample_loop_go (model : Tokens → List ℕ → StartIds → Mat ℝ)
    (start_ids : StartIds) (sequence_length eos_token_id top_k : ℕ)
    (pick : ℕ → ℕ → ℕ) (cur_len : ℕ) (next_token_scores : Mat ℝ) (tokens : Tokens) :
    Tokens × List (Tokens × List ℕ) :=
  if h : cur_len < sequence_length then
    let inputs := legacyInputs pick cur_len top_k eos_token_id next_token_scores
    let tokens1 := appendCol tokens inputs
    if cur_len + 1 ≥ sequence_length then (tokens1, [])
    else
      let inputs_mat : Tokens := inputs.map (fun t => [t])
      let cache_ids := [cur_len]
      let out := sample_loop_go model start_ids sequence_length eos_token_id top_k pick
        (cur_len + 1) (model inputs_mat cache_ids start_ids) tokens1
      (out.1, (inputs_mat, cache_ids) :: out.2)
  else (tokens, [])
termination_by sequence_length - cur_len
decreasing_by omega

/-- Embedding of `sample_loop` (sampling.py, lines 76-101). -/
noncomputable def sample_loop (model : Tokens → List ℕ → StartIds → Mat ℝ)
    (input_ids : Tokens) (start_ids : StartIds) (next_token_scores : Mat ℝ)
    (sequence_length : ℕ) (eos_token_id top_k : ℕ) (pick : ℕ → ℕ → ℕ) :
    Tokens × List (Tokens × List ℕ) :=
  sample_loop_go model start_ids sequence_length eos_token_id top_k pick
    (input_ids.headD []).length next_token_scores input_ids

/-- Embedding of `simple_sample` (sampling.py, lines 18-25): one prefill
forward over the prompt with cache ids `[0, L0)`, then `sample_loop`.  The
second component is the full trace of model calls (prefill first). -/
noncomputable def simple_sample (model : Tokens → List ℕ → StartIds → Mat ℝ)
    (input_ids : Tokens) (start_ids : StartIds) (sequence_length : ℕ)
    (eos_token_id top_k : ℕ) (pick : ℕ → ℕ → ℕ) :
    Tokens × List (Tokens × List ℕ) :=
  let start := (input_ids.headD []).length
  let cache_ids := List.range start
  let next_token_scores := model input_ids cache_ids start_ids
  let out := sample_loop model input_ids start_ids next_token_scores sequence_length
    eos_token_id top_k pick
  (out.1, (input_ids, cache_ids) :: out.2)

/-! ## `sample_tokens` and `sample_greedy` -/

/-- The loop of `sample_tokens` (sampling.py, lines 40-47): the model emits
token matrices itself; each step appends the last column of the model's
output and feeds it back (the model is invoked even on the last iteration,
as in the source, which has no break). -/
def sample_tokens_go (model : Tokens → List ℕ → StartIds → Tokens)
    (start_ids : StartIds) (sequence_length cur_len : ℕ)
    (next_tokens : Tokens) (tokens : Tokens) : Tokens × List (Tokens × List ℕ) :=
  if h : cur_len < sequence_length then
    let nt : List ℤ := next_tokens.map (fun row => row.getLastD 0)
    let tokens1 := appendCol tokens nt
    let nt_mat : Tokens := nt.map (fun t => [t])
    let cache_ids := [cur_len]
    let out := sample_tokens_go model start_ids sequence_length (cur_len + 1)
      (model nt_mat cache_ids start_ids) tokens1
    (out.1, (nt_mat, cache_ids) :: out.2)
  else (tokens, [])
termination_by sequence_length - cur_len
decreasing_by omega

/-- Embedding of `sample_tokens` (sampling.py, lines 28-49). -/
def sample_tokens (model : Tokens → List ℕ → StartIds → Tokens)
    (input_ids : Tokens) (start_ids : StartIds) (sequence_length : ℕ) :
    Tokens × List (Tokens × List ℕ) :=
  let start := (input_ids.headD []).length
  let cache_ids := List.range start
  let next_tokens := model input_ids cache_ids start_ids
  let out := sample_tokens_go model start_ids sequence_length start next_tokens input_ids
  (out.1, (input_ids, cache_ids) :: out.2)

/-- `torch.argmax(row)`: the position of the first maximal entry. -/
noncomputable def argmaxRow (row : List ℝ) : ℕ :=
  row.enum.foldl (fun best p => if row.getD best 0 < p.2 then p.1 else best) 0

/-- The loop of `sample_greedy` (sampling.py, lines 63-72): argmax
selection, append, forward (again, no break in the source). -/
noncomputable def sample_greedy_go (model : Tokens → List ℕ → StartIds → Mat ℝ)
    (start_ids : StartIds) (sequence_length cur_len : ℕ)
    (next_token_scores : Mat ℝ) (tokens : Tokens) : Tokens × List (Tokens × List ℕ) :=
  if h : cur_len < sequence_length then
    let inputs : List ℤ := next_token_scores.map (fun row => ((argmaxRow row : ℕ) : ℤ))
    let tokens1 := appendCol tokens inputs
    let inputs_mat : Tokens := inputs.map (fun t => [t])
    let cache_ids := [cur_len]
    let out := sample_greedy_go model start_ids sequence_length (cur_len + 1)
      (model inputs_mat cache_ids start_ids) tokens1
    (out.1, (inputs_mat, cache_ids) :: out.2)
  else (tokens, [])
termination_by sequence_length - cur_len
decreasing_by omega

/-- Embedding of `sample_greedy` (sampling.py, lines 52-73). -/
noncomputable def sample_greedy (model : Tokens → List ℕ → StartIds → Mat ℝ)
    (input_ids : Tokens) (start_ids : StartIds) (sequence_length : ℕ) :
    Tokens × List (Tokens × List ℕ) :=
  let start := (input_ids.headD []).length
  let cache_ids := List.range start
  let next_token_scores := model input_ids cache_ids start_ids
  let out := sample_greedy_go model start_ids sequence_length start next_token_scores
    input_ids
  (out.1, (input_ids, cache_ids) :: out.2)

/-! ## EOS-unreachability of the legacy sampling step -/

theorem maskEos_length (e : ℕ) (scores : Mat ℝ) :
    (maskEos e scores).length = scores.length := by
  simp [maskEos]

theorem maskEos_row (e : ℕ) (scores : Mat ℝ) (i : ℕ) (hi : i < scores.length) :
    (maskEos e scores).getD i []
      = (scores.getD i []).enum.map
          (fun jc => if jc.1 = e then (⊥ : WithBot ℝ) else (jc.2 : WithBot ℝ)) := by
  unfold maskEos
  rw [getD_map_of_lt _ scores i hi []]

theorem maskEos_row_length (e : ℕ) (row : List ℝ) :
    (row.enum.map
      (fun jc => if jc.1 = e then (⊥ : WithBot ℝ) else (jc.2 : WithBot ℝ))).length
      = row.length := by
  rw [List.length_map, List.enum_length]

theorem maskEos_row_getD (e : ℕ) (row : List ℝ) (j : ℕ) (hj : j < row.length) :
    (row.enum.map
        (fun jc => if jc.1 = e then (⊥ : WithBot ℝ) else (jc.2 : WithBot ℝ))).getD j ⊥
      = if j = e then (⊥ : WithBot ℝ) else ((row.getD j 0 : ℝ) : WithBot ℝ) := by
  rw [getD_map_of_lt _ _ j (by rwa [List.enum_length]) (0, 0) ⊥, getD_enum_of_lt _ j hj 0]

/-- The first entry of a descending-sorted row dominates every row entry. -/
theorem torchSortRow_head_max {α : Type} [LinearOrder α] (row : List α) (d : α) :
    ∀ y ∈ row, y ≤ (torchSortRow row).1.getD 0 d := by
  intro y hy
  have hy' : y ∈ (torchSortRow row).1 := (torchSortRow_fst_perm row).mem_iff.mpr hy
  have hs := torchSortRow_sorted row
  cases hfst : (torchSortRow row).1 with
  | nil =>
    rw [hfst] at hy'
    exact absurd hy' (by simp)
  | cons a l =>
    rw [hfst] at hy' hs
    first
    | rw [hfst, List.getD_cons_zero]
    | rw [List.getD_cons_zero]
    rcases List.mem_cons.mp hy' with rfl | hy'
    · exact le_refl y
    · exact (List.pairwise_cons.mp hs).1 y hy'

theorem expW_pos (v : WithBot ℝ) (h : v ≠ ⊥) : 0 < expW v := by
  induction v using WithBot.recBotCoe with
  | bot => exact absurd rfl h
  | coe x => exact Real.exp_pos x

theorem expW_nonneg (v : WithBot ℝ) : 0 ≤ expW v := by
  induction v using WithBot.recBotCoe with
  | bot => exact le_refl 0
  | coe x => exact le_of_lt (Real.exp_pos x)

theorem softmaxW_length (row : List (WithBot ℝ)) : (softmaxW row).length = row.length := by
  simp [softmaxW]

theorem softmaxW_getD (row : List (WithBot ℝ)) (j : ℕ) (hj : j < row.length) :
    (softmaxW row).getD j 0 = expW (row.getD j ⊥) / (row.map expW).sum := by
  unfold softmaxW
  rw [getD_map_of_lt _ row j hj ⊥]

/-- If some row entry is not `-inf`, the softmax denominator is positive. -/
theorem softmaxW_sum_pos (row : List (WithBot ℝ)) (v : WithBot ℝ) (hv : v ∈ row)
    (hvb : v ≠ ⊥) : 0 < (row.map expW).sum := by
  have h1 : 0 < expW v := expW_pos v hvb
  have h2 : expW v ≤ (row.map expW).sum :=
    List.single_le_sum (by
      intro x hx
      rcases List.mem_map.mp hx with ⟨a, _, rfl⟩
      exact expW_nonneg a) _ (List.mem_map.mpr ⟨v, hv, rfl⟩)
  linarith

theorem multinomial1_pos (probs : List ℝ) (k : ℕ) (hex : ∃ x ∈ probs, 0 < x) :
    multinomial1 probs k < probs.length ∧ 0 < probs.getD (multinomial1 probs k) 0 := by
  unfold multinomial1
  split
  case isTrue h => exact h
  case isFalse h =>
    have hex' : ∃ x ∈ probs, (fun x => decide (0 < x)) x = true := by
      obtain ⟨x, hx, hx0⟩ := hex
      exact ⟨x, hx, by simpa using hx0⟩
    have hlt := List.findIdx_lt_length_of_exists hex'
    refine ⟨hlt, ?_⟩
    have hsome := List.getElem?_eq_getElem hlt
    have h2 := probs.findIdx_of_getElem?_eq_some hsome
    rw [List.getD_eq_getElem _ _ hlt]
    simpa using h2

/-! ## Cache-id traces of the four loops -/

theorem llama_go_calls (model : Tokens → List ℕ → StartIds → Mat ℝ) (start_ids : StartIds)
    (L : ℕ) (eos : ℤ) (tk tp : Py) (temp : ℚ) (pick : ℕ → ℕ → ℕ) :
    ∀ n cur_len scores done tokens out,
      L - cur_len ≤ n →
      sample_loop_llama_go model start_ids L eos tk tp temp pick cur_len scores done tokens
        = Except.ok out →
      out.calls.map Prod.snd = (List.range' cur_len out.calls.length).map (fun c => [c]) := by
  intro n
  induction n with
  | zero =>
    intro cur_len scores done tokens out hn h
    rw [sample_loop_llama_go, dif_neg (by omega)] at h
    injection h with h'
    subst h'
    simp [List.range']
  | succ n ih =>
    intro cur_len scores done tokens out hn h
    by_cases hlt : cur_len < L
    case neg =>
      rw [sample_loop_llama_go, dif_neg hlt] at h
      injection h with h'
      subst h'
      simp [List.range']
    case pos =>
      rw [sample_loop_llama_go, dif_pos hlt] at h
      cases hfil : top_k_top_p_filtering (llamaScaled temp scores) tk tp with
      | error e =>
        rw [hfil] at h
        exact absurd h (by simp)
      | ok vi =>
        obtain ⟨tv, ti⟩ := vi
        rw [hfil] at h
        simp only [] at h
        split at h
        case isTrue hbr =>
          injection h with h'
          subst h'
          simp [List.range']
        case isFalse hbr =>
          split at h
          case h_1 e heqrec => exact absurd h (by simp)
          case h_2 out' heqrec =>
            injection h with h'
            subst h'
            simp only [List.map_cons, List.length_cons]
            rw [List.range'_succ]
            simp only [List.map_cons]
            rw [ih (cur_len + 1) _ _ _ out' (by omega) heqrec]

theorem sample_loop_go_calls (model : Tokens → List ℕ → StartIds → Mat ℝ)
    (start_ids : StartIds) (L e k : ℕ) (pick : ℕ → ℕ → ℕ) :
    ∀ n cur_len scores tokens,
      L - cur_len ≤ n →
      (sample_loop_go model start_ids L e k pick cur_len scores tokens).2.map Prod.snd
        = (List.range' cur_len
            ((sample_loop_go model start_ids L e k pick cur_len scores tokens).2.length)).map
            (fun c => [c]) := by
  intro n
  induction n with
  | zero =>
    intro cur_len scores tokens hn
    rw [sample_loop_go, dif_neg (by omega)]
    simp [List.range']
  | succ n ih =>
    intro cur_len scores tokens hn
    by_cases hlt : cur_len < L
    case neg =>
      rw [sample_loop_go, dif_neg hlt]
      simp [List.range']
    case pos =>
      rw [sample_loop_go, dif_pos hlt]
      by_cases hbr : cur_len + 1 ≥ L
      · rw [if_pos hbr]
        simp [List.range']
      · rw [if_neg hbr]
        simp only [List.map_cons, List.length_cons]
        rw [List.range'_succ]
        simp only [List.map_cons]
        rw [ih (cur_len + 1) _ _ (by omega)]

theorem sample_tokens_go_calls (model : Tokens → List ℕ → StartIds → Tokens)
    (start_ids : StartIds) (L : ℕ) :
    ∀ n cur_len nt tokens,
      L - cur_len ≤ n →
      (sample_tokens_go model start_ids L cur_len nt tokens).2.map Prod.snd
        = (List.range' cur_len
            ((sample_tokens_go model start_ids L cur_len nt tokens).2.length)).map
            (fun c => [c]) := by
  intro n
  induction n with
  | zero =>
    intro cur_len nt tokens hn
    rw [sample_tokens_go, dif_neg (by omega)]
    simp [List.range']
  | succ n ih =>
    intro cur_len nt tokens hn
    by_cases hlt : cur_len < L
    case neg =>
      rw [sample_tokens_go, dif_neg hlt]
      simp [List.range']
    case pos =>
      rw [sample_tokens_go, dif_pos hlt]
      simp only [List.map_cons, List.length_cons]
      rw [List.range'_succ]
      simp only [List.map_cons]
      rw [ih (cur_len + 1) _ _ (by omega)]

theorem sample_greedy_go_calls (model : Tokens → List ℕ → StartIds → Mat ℝ)
    (start_ids : StartIds) (L : ℕ) :
    ∀ n cur_len scores tokens,
      L - cur_len ≤ n →
      (sample_greedy_go model start_ids L cur_len scores tokens).2.map Prod.snd
        = (List.range' cur_len
            ((sample_greedy_go model start_ids L cur_len scores tokens).2.length)).map
            (fun c => [c]) := by
  intro n
  induction n with
  | zero =>
    intro cur_len scores tokens hn
    rw [sample_greedy_go, dif_neg (by omega)]
    simp [List.range']
  | succ n ih =>
    intro cur_len scores tokens hn
    by_cases hlt : cur_len < L
    case neg =>
      rw [sample_greedy_go, dif_neg hlt]
      simp [List.range']
    case pos =>
      rw [sample_greedy_go, dif_pos hlt]
      simp only [List.map_cons, List.length_cons]
      rw [List.range'_succ]
      simp only [List.map_cons]
      rw [ih (cur_len + 1) _ _ (by omega)]

theorem getD_mapIdx_of_lt {α β : Type} (f : ℕ → α → β) (l : List α) (i : ℕ)
    (hi : i < l.length) (d : α) (d' : β) :
    (l.mapIdx f).getD i d' = f i (l.getD i d) := by
  rw [List.getD_eq_getElem _ d' (by simpa using hi), List.getD_eq_getElem _ d hi,
    List.getElem_mapIdx]

theorem legacyInputs_length (pick : ℕ → ℕ → ℕ) (cur_len top_k e : ℕ) (scores : Mat ℝ) :
    (legacyInputs pick cur_len top_k e scores).length = scores.length := by
  simp [legacyInputs, maskEos_length, List.length_zip]

/-- Entries of a masked row, addressed through `maskEos` directly. -/
theorem maskEos_getD (e : ℕ) (scores : Mat ℝ) (i j : ℕ) (hi : i < scores.length)
    (hj : j < (scores.getD i []).length) :
    ((maskEos e scores).getD i []).getD j ⊥
      = if j = e then (⊥ : WithBot ℝ)
        else (((scores.getD i []).getD j 0 : ℝ) : WithBot ℝ) := by
  rw [maskEos_row e scores i hi, maskEos_row_getD e _ j hj]

/-- The token sampled by one legacy decode step is never `eos`: the EOS
column is masked to `-inf`, masked entries carry zero probability after
softmax, and the multinomial draw never selects zero-probability
positions. -/
theorem legacyInputs_ne_eos (pick : ℕ → ℕ → ℕ) (cur_len top_k e V : ℕ) (scores : Mat ℝ)
    (hV : ∀ row ∈ scores, row.length = V) (he : e < V) (hk1 : 1 ≤ top_k) (hV2 : 2 ≤ V)
    (i : ℕ) (hi : i < scores.length) :
    (legacyInputs pick cur_len top_k e scores).getD i 0 ≠ ((e : ℕ) : ℤ) := by
  have hrowlen : (scores.getD i []).length = V := hV _ (getD_mem_of_lt scores i hi [])
  have hmlen : ((maskEos e scores).getD i []).length = V := by
    rw [maskEos_row e scores i hi, maskEos_row_length, hrowlen]
  have hsortlen : (torchSortRow ((maskEos e scores).getD i [])).1.length = V := by
    rw [torchSortRow_length_fst, hmlen]
  have hsortlen2 : (torchSortRow ((maskEos e scores).getD i [])).2.length = V := by
    rw [torchSortRow_length_snd, hmlen]
  have htklen : (torchTopkRow ((maskEos e scores).getD i []) top_k).1.length
      = min top_k V := by
    rw [torchTopkRow, List.length_take, hsortlen]
  -- a non-eos vocabulary position, still a finite entry after masking
  obtain ⟨j, hjV, hje⟩ : ∃ j, j < V ∧ j ≠ e := by
    by_cases h0 : e = 0
    · exact ⟨1, by omega, by omega⟩
    · exact ⟨0, by omega, by omega⟩
  have hjmask : ((maskEos e scores).getD i []).getD j ⊥
      = (((scores.getD i []).getD j 0 : ℝ) : WithBot ℝ) := by
    rw [maskEos_getD e scores i j hi (by omega), if_neg hje]
  -- the head of the descending sort is finite
  have hheadmax := torchSortRow_head_max ((maskEos e scores).getD i []) ⊥
    (((maskEos e scores).getD i []).getD j ⊥)
    (getD_mem_of_lt _ j (by omega) ⊥)
  rw [hjmask] at hheadmax
  have hheadne : (torchSortRow ((maskEos e scores).getD i [])).1.getD 0 ⊥ ≠ ⊥ := by
    intro hbot
    rw [hbot] at hheadmax
    exact WithBot.coe_ne_bot (le_bot_iff.mp hheadmax)
  have htkhead : (torchTopkRow ((maskEos e scores).getD i []) top_k).1.getD 0 ⊥
      = (torchSortRow ((maskEos e scores).getD i [])).1.getD 0 ⊥ := by
    rw [torchTopkRow]
    exact getD_take_of_lt _ top_k 0 (by omega) (by omega) ⊥
  have htkheadne : (torchTopkRow ((maskEos e scores).getD i []) top_k).1.getD 0 ⊥ ≠ ⊥ := by
    rw [htkhead]
    exact hheadne
  have htkpos : 0 < (torchTopkRow ((maskEos e scores).getD i []) top_k).1.length := by
    rw [htklen]
    omega
  have hheadmem : (torchTopkRow ((maskEos e scores).getD i []) top_k).1.getD 0 ⊥
      ∈ (torchTopkRow ((maskEos e scores).getD i []) top_k).1 :=
    getD_mem_of_lt _ 0 htkpos ⊥
  have hsum : 0 < (((torchTopkRow ((maskEos e scores).getD i []) top_k).1).map expW).sum :=
    softmaxW_sum_pos _ _ hheadmem htkheadne
  -- the softmax row has a positive entry
  have hex : ∃ x ∈ softmaxW (torchTopkRow ((maskEos e scores).getD i []) top_k).1, 0 < x := by
    refine ⟨(softmaxW (torchTopkRow ((maskEos e scores).getD i []) top_k).1).getD 0 0,
      getD_mem_of_lt _ 0 (by rw [softmaxW_length]; omega) 0, ?_⟩
    rw [softmaxW_getD _ 0 htkpos]
    exact div_pos (expW_pos _ htkheadne) hsum
  obtain ⟨hposlt, hpospos⟩ := multinomial1_pos
    (softmaxW (torchTopkRow ((maskEos e scores).getD i []) top_k).1) (pick cur_len i) hex
  rw [softmaxW_length] at hposlt
  have hposk : multinomial1
      (softmaxW (torchTopkRow ((maskEos e scores).getD i []) top_k).1) (pick cur_len i)
      < top_k := lt_of_lt_of_le (htklen ▸ hposlt) (min_le_left _ _)
  have hposV : multinomial1
      (softmaxW (torchTopkRow ((maskEos e scores).getD i []) top_k).1) (pick cur_len i)
      < V := lt_of_lt_of_le (htklen ▸ hposlt) (min_le_right _ _)
  -- the drawn position carries a finite value
  have hvne : (torchTopkRow ((maskEos e scores).getD i []) top_k).1.getD
      (multinomial1 (softmaxW (torchTopkRow ((maskEos e scores).getD i []) top_k).1)
        (pick cur_len i)) ⊥ ≠ ⊥ := by
    intro hbot
    rw [softmaxW_getD _ _ hposlt, hbot, expW_bot, zero_div] at hpospos
    exact lt_irrefl 0 hpospos
  -- hence its vocabulary index is not eos
  have hvtake : (torchTopkRow ((maskEos e scores).getD i []) top_k).1.getD
      (multinomial1 (softmaxW (torchTopkRow ((maskEos e scores).getD i []) top_k).1)
        (pick cur_len i)) ⊥
      = (torchSortRow ((maskEos e scores).getD i [])).1.getD
          (multinomial1 (softmaxW (torchTopkRow ((maskEos e scores).getD i []) top_k).1)
            (pick cur_len i)) ⊥ := by
    rw [torchTopkRow]
    exact getD_take_of_lt _ top_k _ hposk (by omega) ⊥
  have hpair := torchSortRow_pairing ((maskEos e scores).getD i []) ⊥
    (multinomial1 (softmaxW (torchTopkRow ((maskEos e scores).getD i []) top_k).1)
      (pick cur_len i)) (by omega)
  have hidxlt : (torchSortRow ((maskEos e scores).getD i [])).2.getD
      (multinomial1 (softmaxW (torchTopkRow ((maskEos e scores).getD i []) top_k).1)
        (pick cur_len i)) 0 < V := by
    rw [← hmlen]
    exact torchSortRow_snd_lt _ _ (getD_mem_of_lt _ _ (by omega) 0)
  have hidxne : (torchSortRow ((maskEos e scores).getD i [])).2.getD
      (multinomial1 (softmaxW (torchTopkRow ((maskEos e scores).getD i []) top_k).1)
        (pick cur_len i)) 0 ≠ e := by
    intro heq
    rw [hvtake, hpair, maskEos_getD e scores i _ hi (by omega), heq, if_pos rfl] at hvne
    exact hvne rfl
  -- unfold the gather
  have hugly : (legacyInputs pick cur_len top_k e scores).getD i 0
      = (((torchTopkRow ((maskEos e scores).getD i []) top_k).2.getD
          (multinomial1 (softmaxW (torchTopkRow ((maskEos e scores).getD i []) top_k).1)
            (pick cur_len i)) 0 : ℕ) : ℤ) := by
    unfold legacyInputs
    have hm1 : i < ((maskEos e scores).map
        (fun row => torchTopkRow row top_k)).length := by
      rw [List.length_map, maskEos_length]
      exact hi
    rw [getD_map_of_lt _ _ i (by
        rw [List.length_zip, List.length_map, List.length_mapIdx, List.length_map,
          List.length_map, maskEos_length]
        omega) ([], 0),
      getD_zip_of_lt _ _ i (by rw [List.length_map]; exact hm1) (by
        rw [List.length_mapIdx, List.length_map, List.length_map, maskEos_length]
        exact hi) [] 0,
      getD_map_of_lt _ _ i hm1 ([], []),
      getD_mapIdx_of_lt _ _ i (by
        rw [List.length_map, List.length_map, maskEos_length]
        exact hi) [] 0,
      getD_map_of_lt _ _ i hm1 ([], []),
      getD_map_of_lt _ _ i (by rw [maskEos_length]; exact hi) []]
  rw [hugly]
  have htk2 : (torchTopkRow ((maskEos e scores).getD i []) top_k).2.getD
      (multinomial1 (softmaxW (torchTopkRow ((maskEos e scores).getD i []) top_k).1)
        (pick cur_len i)) 0
      = (torchSortRow ((maskEos e scores).getD i [])).2.getD
          (multinomial1 (softmaxW (torchTopkRow ((maskEos e scores).getD i []) top_k).1)
            (pick cur_len i)) 0 := by
    rw [torchTopkRow]
    exact getD_take_of_lt _ top_k _ hposk (by omega) 0
  rw [htk2]
  intro hcast
  exact hidxne (by exact_mod_cast hcast)

/-- Run lemma for the legacy loop: row count is preserved, each output row
is the input row extended by exactly `sequence_length - cur_len` sampled
tokens, and no appended token is `eos`. -/
theorem sample_loop_go_spec (model : Tokens → List ℕ → StartIds → Mat ℝ)
    (start_ids : StartIds) (L e top_k : ℕ) (pick : ℕ → ℕ → ℕ) (B V : ℕ)
    (hmB : ∀ t c s, (model t c s).length = B)
    (hmV : ∀ t c s, ∀ row ∈ model t c s, row.length = V)
    (he : e < V) (hk1 : 1 ≤ top_k) (hV2 : 2 ≤ V) :
    ∀ n cur_len scores tokens,
      L - cur_len ≤ n → scores.length = B → (∀ row ∈ scores, row.length = V) →
      tokens.length = B →
      (sample_loop_go model start_ids L e top_k pick cur_len scores tokens).1.length = B ∧
      ∀ i, i < B → ∃ t,
        (sample_loop_go model start_ids L e top_k pick cur_len scores tokens).1.getD i []
          = tokens.getD i [] ++ t ∧
        t.length = L - cur_len ∧ ∀ x ∈ t, x ≠ ((e : ℕ) : ℤ) := by
  intro n
  induction n with
  | zero =>
    intro cur_len scores tokens hn hs hsV ht
    rw [sample_loop_go, dif_neg (by omega)]
    exact ⟨ht, fun i hi => ⟨[], by simp,
      by simp only [List.length_nil]; omega, by simp⟩⟩
  | succ n ih =>
    intro cur_len scores tokens hn hs hsV ht
    by_cases hlt : cur_len < L
    case neg =>
      rw [sample_loop_go, dif_neg hlt]
      exact ⟨ht, fun i hi => ⟨[], by simp,
        by simp only [List.length_nil]; omega, by simp⟩⟩
    case pos =>
      rw [sample_loop_go, dif_pos hlt]
      have hinp : (legacyInputs pick cur_len top_k e scores).length = B := by
        rw [legacyInputs_length, hs]
      have ht1 : (appendCol tokens (legacyInputs pick cur_len top_k e scores)).length
          = B := by
        rw [appendCol_length, ht, hinp]
        omega
      by_cases hbr : cur_len + 1 ≥ L
      · rw [if_pos hbr]
        refine ⟨ht1, ?_⟩
        intro i hi
        refine ⟨[(legacyInputs pick cur_len top_k e scores).getD i 0], ?_,
          by simp only [List.length_singleton]; omega, ?_⟩
        · exact appendCol_getD _ _ i (by rw [ht]; exact hi) (by rw [hinp]; exact hi)
        · intro x hx
          rw [List.mem_singleton] at hx
          subst hx
          exact legacyInputs_ne_eos pick cur_len top_k e V scores hsV he hk1 hV2 i
            (by rw [hs]; exact hi)
      · rw [if_neg hbr]
        have ihs := ih (cur_len + 1)
          (model ((legacyInputs pick cur_len top_k e scores).map (fun t => [t]))
            [cur_len] start_ids)
          (appendCol tokens (legacyInputs pick cur_len top_k e scores))
          (by omega) (hmB _ _ _) (hmV _ _ _) ht1
        refine ⟨ihs.1, ?_⟩
        intro i hi
        obtain ⟨t, hteq, htlen, htne⟩ := ihs.2 i hi
        refine ⟨(legacyInputs pick cur_len top_k e scores).getD i 0 :: t, ?_,
          by simp only [List.length_cons]; omega, ?_⟩
        · rw [hteq, appendCol_getD _ _ i (by rw [ht]; exact hi) (by rw [hinp]; exact hi)]
          simp
        · intro x hx
          rcases List.mem_cons.mp hx with rfl | hx
          · exact legacyInputs_ne_eos pick cur_len top_k e V scores hsV he hk1 hV2 i
              (by rw [hs]; exact hi)
          · exact htne x hx

/-- Run lemma for the `sample_tokens` loop: row count is preserved and each
output row extends its input row. -/
theorem sample_tokens_go_rows (model : Tokens → List ℕ → StartIds → Tokens)
    (start_ids : StartIds) (L B : ℕ)
    (hm : ∀ t c s, (model t c s).length = B) :
    ∀ n cur_len nt tokens,
      L - cur_len ≤ n → nt.length = B → tokens.length = B →
      (sample_tokens_go model start_ids L cur_len nt tokens).1.length = B ∧
      ∀ i, i < B → ∃ t,
        (sample_tokens_go model start_ids L cur_len nt tokens).1.getD i []
          = tokens.getD i [] ++ t := by
  intro n
  induction n with
  | zero =>
    intro cur_len nt tokens hn hnt ht
    rw [sample_tokens_go, dif_neg (by omega)]
    exact ⟨ht, fun i hi => ⟨[], by simp⟩⟩
  | succ n ih =>
    intro cur_len nt tokens hn hnt ht
    by_cases hlt : cur_len < L
    case neg =>
      rw [sample_tokens_go, dif_neg hlt]
      exact ⟨ht, fun i hi => ⟨[], by simp⟩⟩
    case pos =>
      rw [sample_tokens_go, dif_pos hlt]
      have hcol : (nt.map (fun row => row.getLastD 0)).length = B := by
        rw [List.length_map, hnt]
      have ht1 : (appendCol tokens (nt.map (fun row => row.getLastD 0))).length = B := by
        rw [appendCol_length, ht, hcol]
        omega
      have ihs := ih (cur_len + 1)
        (model ((nt.map (fun row => row.getLastD 0)).map (fun t => [t])) [cur_len]
          start_ids)
        (appendCol tokens (nt.map (fun row => row.getLastD 0)))
        (by omega) (hm _ _ _) ht1
      refine ⟨ihs.1, ?_⟩
      intro i hi
      obtain ⟨t, hteq⟩ := ihs.2 i hi
      refine ⟨(nt.map (fun row => row.getLastD 0)).getD i 0 :: t, ?_⟩
      rw [hteq, appendCol_getD _ _ i (by rw [ht]; exact hi) (by rw [hcol]; exact hi)]
      simp

/-- Run lemma for the `sample_greedy` loop: row count is preserved and each
output row extends its input row. -/
theorem sample_greedy_go_rows (model : Tokens → List ℕ → StartIds → Mat ℝ)
    (start_ids : StartIds) (L B : ℕ)
    (hm : ∀ t c s, (model t c s).length = B) :
    ∀ n cur_len scores tokens,
      L - cur_len ≤ n → scores.length = B → tokens.length = B →
      (sample_greedy_go model start_ids L cur_len scores tokens).1.length = B ∧
      ∀ i, i < B → ∃ t,
        (sample_greedy_go model start_ids L cur_len scores tokens).1.getD i []
          = tokens.getD i [] ++ t := by
  intro n
  induction n with
  | zero =>
    intro cur_len scores tokens hn hs ht
    rw [sample_greedy_go, dif_neg (by omega)]
    exact ⟨ht, fun i hi => ⟨[], by simp⟩⟩
  | succ n ih =>
    intro cur_len scores tokens hn hs ht
    by_cases hlt : cur_len < L
    case neg =>
      rw [sample_greedy_go, dif_neg hlt]
      exact ⟨ht, fun i hi => ⟨[], by simp⟩⟩
    case pos =>
      rw [sample_greedy_go, dif_pos hlt]
      have hcol : (scores.map (fun row => ((argmaxRow row : ℕ) : ℤ))).length = B := by
        rw [List.length_map, hs]
      have ht1 : (appendCol tokens
          (scores.map (fun row => ((argmaxRow row : ℕ) : ℤ)))).length = B := by
        rw [appendCol_length, ht, hcol]
        omega
      have ihs := ih (cur_len + 1)
        (model ((scores.map (fun row => ((argmaxRow row : ℕ) : ℤ))).map (fun t => [t]))
          [cur_len] start_ids)
        (appendCol tokens (scores.map (fun row => ((argmaxRow row : ℕ) : ℤ))))
        (by omega) (hm _ _ _) ht1
      refine ⟨ihs.1, ?_⟩
      intro i hi
      obtain ⟨t, hteq⟩ := ihs.2 i hi
      refine ⟨(scores.map (fun row => ((argmaxRow row : ℕ) : ℤ))).getD i 0 :: t, ?_⟩
      rw [hteq, appendCol_getD _ _ i (by rw [ht]; exact hi) (by rw [hcol]; exact hi)]
      simp

/-- Counterexample to claim C6 as stated: the returned output of
`simple_sample` echoes the prompt, so when the prompt itself contains
`eos_token_id` (here prompt `[[0]]` with `eos_token_id = 0`), the EOS id
does appear in the returned output. -/
theorem simple_sample_eos_in_output :
    (0 : ℤ) ∈ (simple_sample (fun _ _ _ => [[(0:ℝ), 0]]) [[0]] Option.none 2 0 1
        (fun _ _ => 0)).1.getD 0 [] := by
  have hss : (simple_sample (fun _ _ _ => [[(0:ℝ), 0]]) [[0]] Option.none 2 0 1
      (fun _ _ => 0)).1
      = (sample_loop_go (fun _ _ _ => [[(0:ℝ), 0]]) Option.none 2 0 1 (fun _ _ => 0) 1
          [[(0:ℝ), 0]] [[0]]).1 := rfl
  have hspec := sample_loop_go_spec (fun _ _ _ => [[(0:ℝ), 0]]) Option.none 2 0 1
    (fun _ _ => 0) 1 2 (fun _ _ _ => rfl)
    (by
      intro t c s row hr
      rw [List.mem_singleton] at hr
      rw [hr]
      rfl)
    (by norm_num) (by norm_num) (by norm_num) 1 1 [[(0:ℝ), 0]] [[0]] (by norm_num) rfl
    (by
      intro row hr
      rw [List.mem_singleton] at hr
      rw [hr]
      rfl)
    rfl
  obtain ⟨t, hteq, _, _⟩ := hspec.2 0 (by norm_num)
  rw [hss, hteq]
  simp

/-- Claim C6 (amended): for every model with vocabulary `V` (with at least
two entries), prompt, and `sequence_length` greater than the prompt length,
`simple_sample` returns a matrix with exactly `sequence_length` columns,
and `eos_token_id` never appears among the generated columns (the columns
appended after the echoed prompt). -/
theorem simple_sample_no_eos_generated (model : Tokens → List ℕ → StartIds → Mat ℝ)
    (input_ids : Tokens) (start_ids : StartIds) (L e top_k : ℕ) (pick : ℕ → ℕ → ℕ)
    (B V : ℕ)
    (hmB : ∀ t c s, (model t c s).length = B)
    (hmV : ∀ t c s, ∀ row ∈ model t c s, row.length = V)
    (hB : input_ids.length = B)
    (hrows : ∀ i, i < B → (input_ids.getD i []).length = (input_ids.headD []).length)
    (he : e < V) (hk1 : 1 ≤ top_k) (hkV : top_k ≤ V) (hV2 : 2 ≤ V)
    (hL : (input_ids.headD []).length < L) :
    (simple_sample model input_ids start_ids L e top_k pick).1.length = B ∧
    ∀ i, i < B → ∃ t,
      (simple_sample model input_ids start_ids L e top_k pick).1.getD i []
        = input_ids.getD i [] ++ t ∧
      ((simple_sample model input_ids start_ids L e top_k pick).1.getD i []).length = L ∧
      ∀ x ∈ t, x ≠ ((e : ℕ) : ℤ) := by
  have hss : (simple_sample model input_ids start_ids L e top_k pick).1
      = (sample_loop_go model start_ids L e top_k pick (input_ids.headD []).length
          (model input_ids (List.range (input_ids.headD []).length) start_ids)
          input_ids).1 := rfl
  have hspec := sample_loop_go_spec model start_ids L e top_k pick B V hmB hmV he hk1
    hV2 (L - (input_ids.headD []).length) (input_ids.headD []).length
    (model input_ids (List.range (input_ids.headD []).length) start_ids) input_ids
    (le_refl _) (hmB _ _ _) (hmV _ _ _) hB
  refine ⟨by rw [hss]; exact hspec.1, ?_⟩
  intro i hi
  obtain ⟨t, hteq, htlen, htne⟩ := hspec.2 i hi
  refine ⟨t, by rw [hss]; exact hteq, ?_, htne⟩
  rw [hss, hteq, List.length_append, hrows i hi, htlen]
  omega

/-- Witness for the amended claim C6: the theorem applied at a concrete
model (`V = 2` scores `[[0, 0]]`), prompt `[[5]]`, `sequence_length = 2`,
`eos_token_id = 0`, `top_k = 1`. -/
theorem simple_sample_no_eos_generated_witness :
    (simple_sample (fun _ _ _ => [[(0:ℝ), 0]]) [[5]] Option.none 2 0 1
        (fun _ _ => 0)).1.length = 1 ∧
    ∀ i, i < 1 → ∃ t,
      (simple_sample (fun _ _ _ => [[(0:ℝ), 0]]) [[5]] Option.none 2 0 1
          (fun _ _ => 0)).1.getD i []
        = ([[5]] : Tokens).getD i [] ++ t ∧
      ((simple_sample (fun _ _ _ => [[(0:ℝ), 0]]) [[5]] Option.none 2 0 1
          (fun _ _ => 0)).1.getD i []).length = 2 ∧
      ∀ x ∈ t, x ≠ ((0 : ℕ) : ℤ) :=
  simple_sample_no_eos_generated (fun _ _ _ => [[(0:ℝ), 0]]) [[5]] Option.none 2 0 1
    (fun _ _ => 0) 1 2 (fun _ _ _ => rfl)
    (by
      intro t c s row hr
      rw [List.mem_singleton] at hr
      rw [hr]
      rfl)
    rfl
    (by
      intro i hi
      interval_cases i
      rfl)
    (by norm_num) (by norm_num) (by norm_num) (by norm_num) (by norm_num)

/-- Run lemma for the legacy loop without vocabulary hypotheses: row count
is preserved and each output row extends its input row. -/
theorem sample_loop_go_rows (model : Tokens → List ℕ → StartIds → Mat ℝ)
    (start_ids : StartIds) (L e k : ℕ) (pick : ℕ → ℕ → ℕ) (B : ℕ)
    (hm : ∀ t c s, (model t c s).length = B) :
    ∀ n cur_len scores tokens,
      L - cur_len ≤ n → scores.length = B → tokens.length = B →
      (sample_loop_go model start_ids L e k pick cur_len scores tokens).1.length = B ∧
      ∀ i, i < B → ∃ t,
        (sample_loop_go model start_ids L e k pick cur_len scores tokens).1.getD i []
          = tokens.getD i [] ++ t := by
  intro n
  induction n with
  | zero =>
    intro cur_len scores tokens hn hs ht
    rw [sample_loop_go, dif_neg (by omega)]
    exact ⟨ht, fun i hi => ⟨[], by simp⟩⟩
  | succ n ih =>
    intro cur_len scores tokens hn hs ht
    by_cases hlt : cur_len < L
    case neg =>
      rw [sample_loop_go, dif_neg hlt]
      exact ⟨ht, fun i hi => ⟨[], by simp⟩⟩
    case pos =>
      rw [sample_loop_go, dif_pos hlt]
      have hinp : (legacyInputs pick cur_len k e scores).length = B := by
        rw [legacyInputs_length, hs]
      have ht1 : (appendCol tokens (legacyInputs pick cur_len k e scores)).length = B := by
        rw [appendCol_length, ht, hinp]
        omega
      by_cases hbr : cur_len + 1 ≥ L
      · rw [if_pos hbr]
        refine ⟨ht1, ?_⟩
        intro i hi
        refine ⟨[(legacyInputs pick cur_len k e scores).getD i 0], ?_⟩
        exact appendCol_getD _ _ i (by rw [ht]; exact hi) (by rw [hinp]; exact hi)
      · rw [if_neg hbr]
        have ihs := ih (cur_len + 1)
          (model ((legacyInputs pick cur_len k e scores).map (fun t => [t])) [cur_len]
            start_ids)
          (appendCol tokens (legacyInputs pick cur_len k e scores))
          (by omega) (hm _ _ _) ht1
        refine ⟨ihs.1, ?_⟩
        intro i hi
        obtain ⟨t, hteq⟩ := ihs.2 i hi
        refine ⟨(legacyInputs pick cur_len k e scores).getD i 0 :: t, ?_⟩
        rw [hteq, appendCol_getD _ _ i (by rw [ht]; exact hi) (by rw [hinp]; exact hi)]
        simp

/-- A concrete end-to-end run of `sample_llama` (used by witnesses): the
prefill call plus the one-step all-done loop. -/
theorem sample_llama_concrete :
    sample_llama (fun _ _ _ => [[(0:ℝ)]]) [[2]] Option.none 3 0 Py.none Py.none
        (Py.float 1) (fun _ _ => 0)
      = (Except.ok ⟨[[2, 0]], [], [⟨1, [0], [true], [0], Option.none⟩]⟩,
         [([[2]], List.range 1)]) := by
  have h1 : sample_llama (fun _ _ _ => [[(0:ℝ)]]) [[2]] Option.none 3 0 Py.none Py.none
      (Py.float 1) (fun _ _ => 0)
      = (sample_loop_llama (fun _ _ _ => [[(0:ℝ)]]) [[2]] Option.none [[(0:ℝ)]] 3 0
          Py.none Py.none (Py.float 1) (fun _ _ => 0),
         [([[2]], List.range 1)]) := rfl
  rw [h1, llama_concrete_run_allDone]

/-- Claim C8: in every generation loop, the cache positions passed to the
model are first the contiguous range `[0, L0)` for the `L0`-token prompt
and then the single positions `L0, L0+1, …` — strictly increasing by
exactly the number of newly submitted tokens at each call, with no position
revisited or decreased. -/
theorem cache_positions_contiguous :
    (∀ (model : Tokens → List ℕ → StartIds → Mat ℝ) input_ids start_ids L e k pick,
      ∃ m, (simple_sample model input_ids start_ids L e k pick).2.map Prod.snd
        = List.range (input_ids.headD []).length
            :: (List.range' (input_ids.headD []).length m).map (fun c => [c])) ∧
    (∀ (model : Tokens → List ℕ → StartIds → Tokens) input_ids start_ids L,
      ∃ m, (sample_tokens model input_ids start_ids L).2.map Prod.snd
        = List.range (input_ids.headD []).length
            :: (List.range' (input_ids.headD []).length m).map (fun c => [c])) ∧
    (∀ (model : Tokens → List ℕ → StartIds → Mat ℝ) input_ids start_ids L,
      ∃ m, (sample_greedy model input_ids start_ids L).2.map Prod.snd
        = List.range (input_ids.headD []).length
            :: (List.range' (input_ids.headD []).length m).map (fun c => [c])) ∧
    (∀ (model : Tokens → List ℕ → StartIds → Mat ℝ) input_ids start_ids L e tk tp temp
        pick out pc,
      sample_llama model input_ids start_ids L e tk tp temp pick = (Except.ok out, pc) →
      ∃ m, (pc ++ out.calls).map Prod.snd
        = List.range (input_ids.headD []).length
            :: (List.range' (input_ids.headD []).length m).map (fun c => [c])) := by
  refine ⟨?_, ?_, ?_, ?_⟩
  · intro model input_ids start_ids L e k pick
    refine ⟨(sample_loop_go model start_ids L e k pick (input_ids.headD []).length
      (model input_ids (List.range (input_ids.headD []).length) start_ids)
      input_ids).2.length, ?_⟩
    have h1 : (simple_sample model input_ids start_ids L e k pick).2
        = (input_ids, List.range (input_ids.headD []).length)
            :: (sample_loop_go model start_ids L e k pick (input_ids.headD []).length
                (model input_ids (List.range (input_ids.headD []).length) start_ids)
                input_ids).2 := rfl
    rw [h1, List.map_cons]
    rw [sample_loop_go_calls model start_ids L e k pick
      (L - (input_ids.headD []).length) _ _ _ (le_refl _)]
  · intro model input_ids start_ids L
    refine ⟨(sample_tokens_go model start_ids L (input_ids.headD []).length
      (model input_ids (List.range (input_ids.headD []).length) start_ids)
      input_ids).2.length, ?_⟩
    have h1 : (sample_tokens model input_ids start_ids L).2
        = (input_ids, List.range (input_ids.headD []).length)
            :: (sample_tokens_go model start_ids L (input_ids.headD []).length
                (model input_ids (List.range (input_ids.headD []).length) start_ids)
                input_ids).2 := rfl
    rw [h1, List.map_cons]
    rw [sample_tokens_go_calls model start_ids L
      (L - (input_ids.headD []).length) _ _ _ (le_refl _)]
  · intro model input_ids start_ids L
    refine ⟨(sample_greedy_go model start_ids L (input_ids.headD []).length
      (model input_ids (List.range (input_ids.headD []).length) start_ids)
      input_ids).2.length, ?_⟩
    have h1 : (sample_greedy model input_ids start_ids L).2
        = (input_ids, List.range (input_ids.headD []).length)
            :: (sample_greedy_go model start_ids L (input_ids.headD []).length
                (model input_ids (List.range (input_ids.headD []).length) start_ids)
                input_ids).2 := rfl
    rw [h1, List.map_cons]
    rw [sample_greedy_go_calls model start_ids L
      (L - (input_ids.headD []).length) _ _ _ (le_refl _)]
  · intro model input_ids start_ids L e tk tp temp pick out pc h
    unfold sample_llama at h
    cases hval : validate_top_k_top_p_min_tokens_to_keep tk tp Py.none with
    | error er =>
      rw [hval] at h
      injection h with h1 h2
      exact absurd h1 (by simp)
    | ok u =>
      rw [hval] at h
      simp only [] at h
      injection h with h1 h2
      subst h2
      unfold sample_loop_llama at h1
      rw [hval] at h1
      simp only [] at h1
      by_cases htemp : temp.isFloat = true ∧ 0 < temp.floatVal
      · rw [if_neg (not_not_intro htemp)] at h1
        refine ⟨out.calls.length, ?_⟩
        rw [List.map_append]
        rw [llama_go_calls model start_ids L e tk tp temp.floatVal pick
          (L - (input_ids.headD []).length) _ _ _ _ out (le_refl _) h1]
        rfl
      · rw [if_pos htemp] at h1
        exact absurd h1 (by simp)

theorem cache_positions_contiguous_witness :
    ∃ m, (([([[(2:ℤ)]], List.range 1)] : List (Tokens × List ℕ))
        ++ (⟨[[2, 0]], [], [⟨1, [0], [true], [0], Option.none⟩]⟩ : LlamaOut).calls).map
        Prod.snd
      = List.range (([[(2:ℤ)]] : Tokens).headD []).length
          :: (List.range' (([[(2:ℤ)]] : Tokens).headD []).length m).map
              (fun c => [c]) :=
  cache_positions_contiguous.2.2.2 (fun _ _ _ => [[(0:ℝ)]]) [[2]] Option.none 3 0
    Py.none Py.none (Py.float 1) (fun _ _ => 0)
    ⟨[[2, 0]], [], [⟨1, [0], [true], [0], Option.none⟩]⟩ [([[2]], List.range 1)]
    sample_llama_concrete

/-- Claim C10: for every entry point (simple_sample, sample_tokens,
sample_greedy, sample_llama), assuming the model preserves the batch row
count, the first L0 columns of each returned row equal the corresponding
prompt row unchanged: generation only appends columns after the prompt
and never modifies the prompt prefix. -/
theorem prompt_preserved :
    (∀ (model : Tokens → List ℕ → StartIds → Mat ℝ) input_ids start_ids L e k pick B,
      (∀ t c s, (model t c s).length = B) → input_ids.length = B →
      ∀ i, i < B →
        ((simple_sample model input_ids start_ids L e k pick).1.getD i []).take
            (input_ids.getD i []).length
          = input_ids.getD i []) ∧
    (∀ (model : Tokens → List ℕ → StartIds → Tokens) input_ids start_ids L B,
      (∀ t c s, (model t c s).length = B) → input_ids.length = B →
      ∀ i, i < B →
        ((sample_tokens model input_ids start_ids L).1.getD i []).take
            (input_ids.getD i []).length
          = input_ids.getD i []) ∧
    (∀ (model : Tokens → List ℕ → StartIds → Mat ℝ) input_ids start_ids L B,
      (∀ t c s, (model t c s).length = B) → input_ids.length = B →
      ∀ i, i < B →
        ((sample_greedy model input_ids start_ids L).1.getD i []).take
            (input_ids.getD i []).length
          = input_ids.getD i []) ∧
    (∀ (model : Tokens → List ℕ → StartIds → Mat ℝ) input_ids start_ids L e tk tp temp
        pick B out pc,
      (∀ t c s, (model t c s).length = B) → input_ids.length = B →
      sample_llama model input_ids start_ids L e tk tp temp pick = (Except.ok out, pc) →
      ∀ i, i < B →
        (out.result.getD i []).take (input_ids.getD i []).length
          = input_ids.getD i []) := by
  refine ⟨?_, ?_, ?_, ?_⟩
  · intro model input_ids start_ids L e k pick B hm hB i hi
    have h1 : (simple_sample model input_ids start_ids L e k pick).1
        = (sample_loop_go model start_ids L e k pick (input_ids.headD []).length
            (model input_ids (List.range (input_ids.headD []).length) start_ids)
            input_ids).1 := rfl
    obtain ⟨t, hteq⟩ := (sample_loop_go_rows model start_ids L e k pick B hm
      (L - (input_ids.headD []).length) (input_ids.headD []).length
      (model input_ids (List.range (input_ids.headD []).length) start_ids)
      input_ids (le_refl _) (hm _ _ _) hB).2 i hi
    rw [h1, hteq, List.take_left]
  · intro model input_ids start_ids L B hm hB i hi
    have h1 : (sample_tokens model input_ids start_ids L).1
        = (sample_tokens_go model start_ids L (input_ids.headD []).length
            (model input_ids (List.range (input_ids.headD []).length) start_ids)
            input_ids).1 := rfl
    obtain ⟨t, hteq⟩ := (sample_tokens_go_rows model start_ids L B hm
      (L - (input_ids.headD []).length) (input_ids.headD []).length
      (model input_ids (List.range (input_ids.headD []).length) start_ids)
      input_ids (le_refl _) (hm _ _ _) hB).2 i hi
    rw [h1, hteq, List.take_left]
  · intro model input_ids start_ids L B hm hB i hi
    have h1 : (sample_greedy model input_ids start_ids L).1
        = (sample_greedy_go model start_ids L (input_ids.headD []).length
            (model input_ids (List.range (input_ids.headD []).length) start_ids)
            input_ids).1 := rfl
    obtain ⟨t, hteq⟩ := (sample_greedy_go_rows model start_ids L B hm
      (L - (input_ids.headD []).length) (input_ids.headD []).length
      (model input_ids (List.range (input_ids.headD []).length) start_ids)
      input_ids (le_refl _) (hm _ _ _) hB).2 i hi
    rw [h1, hteq, List.take_left]
  · intro model input_ids start_ids L e tk tp temp pick B out pc hm hB h
    unfold sample_llama at h
    cases hval : validate_top_k_top_p_min_tokens_to_keep tk tp Py.none with
    | error er =>
      rw [hval] at h
      injection h with h1 h2
      exact absurd h1 (by simp)
    | ok u =>
      rw [hval] at h
      simp only [] at h
      injection h with h1 h2
      unfold sample_loop_llama at h1
      rw [hval] at h1
      simp only [] at h1
      by_cases htemp : temp.isFloat = true ∧ 0 < temp.floatVal
      · rw [if_neg (not_not_intro htemp)] at h1
        intro i hi
        obtain ⟨t, hteq, -⟩ := (llama_go_spec model start_ids L e tk tp temp.floatVal
          pick B hm (L - (input_ids.headD []).length) (input_ids.headD []).length
          (model input_ids (List.range (input_ids.headD []).length) start_ids)
          (List.replicate input_ids.length false) input_ids out (le_refl _)
          (hm _ _ _) (by rw [List.length_replicate, hB]) hB h1).2.1 i hi
        rw [hteq, List.take_left]
      · rw [if_pos htemp] at h1
        exact absurd h1 (by simp)

theorem prompt_preserved_witness :
    ((simple_sample (fun _ _ _ => [[(0:ℝ), 0]]) [[5]] Option.none 2 0 1
        (fun _ _ => 0)).1.getD 0 []).take (([[5]] : Tokens).getD 0 []).length
      = ([[5]] : Tokens).getD 0 [] :=
  prompt_preserved.1 (fun _ _ _ => [[(0:ℝ), 0]]) [[5]] Option.none 2 0 1
    (fun _ _ => 0) 1 (fun _ _ _ => rfl) rfl 0 (by decide)

/-- Claim C7: the validator raises `InvalidParameter` for `top_k = 0`,
`top_k = -1`, `top_p = 0.0`, `top_p = 1.5` and `min_tokens_to_keep = -1`,
succeeds for `(top_k = 50, top_p = 0.95, min_tokens_to_keep = 1)`, and in
general accepts any provided `top_p` that is a float in (0, 1], any provided
`top_k` that is a positive int, and any provided `min_tokens_to_keep` that is
a non-negative int. -/
theorem validate_spec :
    (∃ e, validate_top_k_top_p_min_tokens_to_keep (Py.int 0) Py.none Py.none
        = Except.error e) ∧
    (∃ e, validate_top_k_top_p_min_tokens_to_keep (Py.int (-1)) Py.none Py.none
        = Except.error e) ∧
    (∃ e, validate_top_k_top_p_min_tokens_to_keep Py.none (Py.float 0) Py.none
        = Except.error e) ∧
    (∃ e, validate_top_k_top_p_min_tokens_to_keep Py.none (Py.float (3/2)) Py.none
        = Except.error e) ∧
    (∃ e, validate_top_k_top_p_min_tokens_to_keep Py.none Py.none (Py.int (-1))
        = Except.error e) ∧
    (validate_top_k_top_p_min_tokens_to_keep (Py.int 50) (Py.float (19/20)) (Py.int 1)
        = Except.ok ()) ∧
    (∀ k p m : Py,
      (k = Py.none ∨ ∃ n : ℤ, k = Py.int n ∧ 0 < n) →
      (p = Py.none ∨ ∃ q : ℚ, p = Py.float q ∧ 0 < q ∧ q ≤ 1) →
      (m = Py.none ∨ ∃ n : ℤ, m = Py.int n ∧ 0 ≤ n) →
      validate_top_k_top_p_min_tokens_to_keep k p m = Except.ok ()) := by
  refine ⟨⟨"top_k` has to be a strictly positive int.", ?_⟩,
    ⟨"top_k` has to be a strictly positive int.", ?_⟩,
    ⟨"top_p` has to be a strictly positive float that less than or equal to 1.0.", ?_⟩,
    ⟨"top_p` has to be a strictly positive float that less than or equal to 1.0.", ?_⟩,
    ⟨"min_tokens_to_keep` has to be a non-negative int.", ?_⟩, ?_, ?_⟩
  case _ =>
    norm_num [validate_top_k_top_p_min_tokens_to_keep, Py.isInt, Py.intVal]
    exact fun h => nomatch h
  case _ =>
    norm_num [validate_top_k_top_p_min_tokens_to_keep, Py.isInt, Py.intVal]
    exact fun h => nomatch h
  case _ =>
    norm_num [validate_top_k_top_p_min_tokens_to_keep, Py.isInt, Py.isFloat,
      Py.intVal, Py.floatVal]
    exact fun h => nomatch h
  case _ =>
    norm_num [validate_top_k_top_p_min_tokens_to_keep, Py.isInt, Py.isFloat,
      Py.intVal, Py.floatVal]
    exact fun h => nomatch h
  case _ =>
    norm_num [validate_top_k_top_p_min_tokens_to_keep, Py.isInt, Py.isFloat,
      Py.intVal, Py.floatVal]
    exact fun h => nomatch h
  case _ =>
    norm_num [validate_top_k_top_p_min_tokens_to_keep, Py.isInt, Py.isFloat,
      Py.intVal, Py.floatVal]
  exact validate_accepts

/-- Witness for claim C7: the acceptance clause of `validate_spec` applied at
the concrete legal parameters `top_k = 3`, `top_p = 1/2`,
`min_tokens_to_keep = None`. -/
theorem validate_spec_witness :
    validate_top_k_top_p_min_tokens_to_keep (Py.int 3) (Py.float (1/2)) Py.none
      = Except.ok () :=
  validate_spec.2.2.2.2.2.2 (Py.int 3) (Py.float (1/2)) Py.none
    (Or.inr ⟨3, rfl, by norm_num⟩) (Or.inr ⟨1/2, rfl, by norm_num, by norm_num⟩)
    (Or.inl rfl)

end TNX
